import Mathlib

/-!
Array-indexed singly linked list (`src/1.c`).

A shallow embedding of the C program: the node heap is a partial map from
addresses to `Node` cells, the `nodes` array is a map from slots to pointers
that may only be accessed below `capacity`, `int` arithmetic that can leave
the 32-bit range wraps, and an operation returns `none` when the C code would
leave defined behaviour (null or dangling dereference, array access outside
the allocated slots, an address that `malloc` could not have returned).
-/

namespace DSA

/-! ## Data model -/

/-- A C pointer to a `Node`: `none` is `NULL`, `some a` is the address `a`. -/
abbrev Ptr := Option Nat

/-- The struct `Node`: a value and a pointer to the next node. -/
structure Node where
  value : Int
  next : Ptr
deriving DecidableEq

/-- The struct `LinkedListADT`. Slot `i` of `nodes` exists for `0 ≤ i < capacity`. -/
structure LinkedListADT where
  head : Ptr
  tail : Ptr
  nodes : Int → Ptr
  size : Int
  capacity : Int

/-- The program state: the heap of allocated nodes, the list object and what
has been written to standard output (one entry per `printf` call). -/
structure State where
  heap : Nat → Option Node
  list : LinkedListADT
  out : List String

/-- The largest value of a C `int` (32 bits). -/
def INT_MAX : Int := 2147483647

/-- Two's-complement wrap-around of a mathematical integer into the `int` range. -/
def wrap32 (x : Int) : Int := (x + 2147483648) % 4294967296 - 2147483648

/-! ## Memory primitives -/

/-- The heap `h` with cell `a` replaced by `c` (`none` releases the cell). -/
def heapSet (h : Nat → Option Node) (a : Nat) (c : Option Node) : Nat → Option Node :=
  fun b => if b = a then c else h b

/-- Dereference `p`: undefined for `NULL` and for an address that is not allocated. -/
def deref (s : State) (p : Ptr) : Option Node :=
  match p with
  | none => none
  | some a => s.heap a

/-- The assignment `p->next = q`. -/
def setNext (s : State) (p : Ptr) (q : Ptr) : Option State :=
  match p with
  | none => none
  | some a =>
    match s.heap a with
    | none => none
    | some c => some { s with heap := heapSet s.heap a (some { c with next := q }) }

/-- The call `free(p)`: no effect for `NULL`, undefined for an address that is not allocated. -/
def free (s : State) (p : Ptr) : Option State :=
  match p with
  | none => some s
  | some a =>
    match s.heap a with
    | none => none
    | some _ => some { s with heap := heapSet s.heap a none }

/-- Reading `list->nodes[i]`: defined only for an allocated slot. -/
def nodesRead (l : LinkedListADT) (i : Int) : Option Ptr :=
  if 0 ≤ i ∧ i < l.capacity then some (l.nodes i) else none

/-- The assignment `list->nodes[i] = p`: defined only for an allocated slot. -/
def nodesWrite (l : LinkedListADT) (i : Int) (p : Ptr) : Option LinkedListADT :=
  if 0 ≤ i ∧ i < l.capacity then
    some { l with nodes := fun j => if j = i then p else l.nodes j }
  else none

/-- One `printf` call writing the text `t`. -/
def printf (s : State) (t : String) : State :=
  { s with out := s.out ++ [t] }

/-! ## The functions of `1.c` -/

/-- The function `createNode`; `addr` is the address `malloc` hands out, which
must not be an allocated cell. -/
def createNode (s : State) (addr : Nat) (value : Int) : Option (State × Nat) :=
  match s.heap addr with
  | some _ => none
  | none => some ({ s with heap := heapSet s.heap addr (some { value := value, next := none }) }, addr)

/-- The function `createList`; `junk` is the indeterminate content of the
freshly allocated `nodes` array. -/
def createList (junk : Int → Ptr) : State :=
  { heap := fun _ => none
    list := { head := none, tail := none, nodes := junk, size := 0, capacity := 1024 }
    out := [] }

/-- The function `ensureCapacity`: `realloc` keeps the old slots, and the slots
that exist afterwards are those below the new `capacity`. -/
def ensureCapacity (s : State) : State :=
  if s.list.size ≥ s.list.capacity then
    { s with list := { s.list with capacity := wrap32 (s.list.capacity * 2) } }
  else s

/-- The loop `for (i = size; i > index; i--) nodes[i] = nodes[i - 1]` of `insert`,
started at `i` with the given number of iterations as fuel. -/
def shiftRight (index : Int) : Nat → Int → LinkedListADT → Option LinkedListADT
  | 0, i, l => if i > index then none else some l
  | fuel + 1, i, l =>
    if i > index then
      (nodesRead l (i - 1)).bind fun p =>
      (nodesWrite l i p).bind fun l1 =>
      shiftRight index fuel (i - 1) l1
    else some l

/-- The three-way linking step of `insert` (lines 56-67). -/
def linkNew (s : State) (index : Int) (newNode : Nat) : Option State :=
  if index = 0 then
    (setNext s (some newNode) s.list.head).bind fun s1 =>
    let s2 : State := { s1 with list := { s1.list with head := some newNode } }
    if s2.list.size = 0 then
      some { s2 with list := { s2.list with tail := some newNode } }
    else some s2
  else if index = s.list.size then
    (setNext s s.list.tail (some newNode)).bind fun s1 =>
    some { s1 with list := { s1.list with tail := some newNode } }
  else
    (nodesRead s.list (index - 1)).bind fun prev =>
    (deref s prev).bind fun c =>
    (setNext s (some newNode) c.next).bind fun s1 =>
    setNext s1 prev (some newNode)

/-- The function `insert`; `addr` is the address `malloc` returns to `createNode`. -/
def insert (s : State) (index value : Int) (addr : Nat) : Option State :=
  if index < 0 ∨ index > s.list.size then
    some (printf s "Invalid index\n")
  else
    (createNode (ensureCapacity s) addr value).bind fun r =>
    (linkNew r.1 index r.2).bind fun s1 =>
    (shiftRight index (s1.list.size - index).toNat s1.list.size s1.list).bind fun l1 =>
    (nodesWrite l1 index (some r.2)).bind fun l2 =>
    some { s1 with list := { l2 with size := wrap32 (l2.size + 1) } }

/-- The loop `for (i = index; i < size - 1; i++) nodes[i] = nodes[i + 1]` of `removeAt`,
started at `i` with the given number of iterations as fuel. -/
def shiftLeft : Nat → Int → LinkedListADT → Option LinkedListADT
  | 0, i, l => if i < l.size - 1 then none else some l
  | fuel + 1, i, l =>
    if i < l.size - 1 then
      (nodesRead l (i + 1)).bind fun p =>
      (nodesWrite l i p).bind fun l1 =>
      shiftLeft fuel (i + 1) l1
    else some l

/-- The unlinking step of `removeAt` (lines 86-90). -/
def unlink (s : State) (index : Int) (del : Ptr) : Option State :=
  if index = 0 then
    (deref s s.list.head).bind fun c =>
    some { s with list := { s.list with head := c.next } }
  else
    (nodesRead s.list (index - 1)).bind fun prev =>
    (deref s del).bind fun c =>
    setNext s prev c.next

/-- The tail update of `removeAt` (lines 92-94). -/
def fixTail (s : State) (index : Int) : Option State :=
  if index = s.list.size - 1 then
    if index > 0 then
      (nodesRead s.list (index - 1)).bind fun p =>
      some { s with list := { s.list with tail := p } }
    else some { s with list := { s.list with tail := none } }
  else some s

/-- The function `removeAt`. The decrement `size--` runs with `size ≥ 1` and cannot wrap. -/
def removeAt (s : State) (index : Int) : Option State :=
  if index < 0 ∨ index ≥ s.list.size then
    some (printf s "Invalid index\n")
  else
    (nodesRead s.list index).bind fun del =>
    (unlink s index del).bind fun s1 =>
    (fixTail s1 index).bind fun s2 =>
    (shiftLeft (s2.list.size - 1 - index).toNat index s2.list).bind fun l1 =>
    (free { s2 with list := l1 } del).bind fun s3 =>
    some { s3 with list := { s3.list with size := s3.list.size - 1 } }

/-- The function `get`: the returned `int` together with the state (the
out-of-range branch prints). -/
def get (s : State) (index : Int) : Option (Int × State) :=
  if index < 0 ∨ index ≥ s.list.size then
    some (-1, printf s "Invalid index\n")
  else
    (nodesRead s.list index).bind fun p =>
    (deref s p).bind fun c =>
    some (c.value, s)

/-- The `while (curr)` loop of `printList`; `none` when the fuel runs out or a
link dangles. -/
def printLoop : Nat → State → Ptr → Option State
  | _, s, none => some s
  | 0, _, some _ => none
  | fuel + 1, s, some a =>
    match s.heap a with
    | none => none
    | some c => printLoop fuel (printf s (toString c.value ++ " -> ")) c.next

/-- The function `printList`. -/
def printList (fuel : Nat) (s : State) : Option State :=
  (printLoop fuel s s.list.head).map fun s1 => printf s1 "NULL\n"

/-- The values met by the walk of `printList` (`curr = head; while (curr) curr = curr->next`),
in order. -/
def traverse (heap : Nat → Option Node) : Nat → Ptr → Option (List Int)
  | _, none => some []
  | 0, some _ => none
  | fuel + 1, some a =>
    match heap a with
    | none => none
    | some c => (traverse heap fuel c.next).map fun vs => c.value :: vs

/-- The addresses of the elements met by the same walk, in order. -/
def walk (heap : Nat → Option Node) : Nat → Ptr → Option (List Nat)
  | _, none => some []
  | 0, some _ => none
  | fuel + 1, some a =>
    match heap a with
    | none => none
    | some c => (walk heap fuel c.next).map fun as => a :: as

/-! ## Call sequences -/

/-- One call made by the menu loop; an `insert` records the address `malloc` returned. -/
inductive Op where
  | insert (index value : Int) (addr : Nat)
  | removeAt (index : Int)

/-- Perform one call. -/
def step (s : State) : Op → Option State
  | .insert index value addr => insert s index value addr
  | .removeAt index => removeAt s index

/-- Perform a sequence of calls, left to right. -/
def run : List Op → State → Option State
  | [], s => some s
  | op :: ops, s => (step s op).bind (run ops)

/-- States reached from `createList` by `insert` and `removeAt` calls. -/
inductive Reachable : State → Prop where
  | create (junk : Int → Ptr) : Reachable (createList junk)
  | insert {s s1 : State} (index value : Int) (addr : Nat) :
      Reachable s → insert s index value addr = some s1 → Reachable s1
  | removeAt {s s1 : State} (index : Int) :
      Reachable s → removeAt s index = some s1 → Reachable s1

/-! ## The logical sequence and the reference model -/

/-- The value stored in the element that slot `i` of the index array refers to
(0 when the slot holds no live element). -/
def valueAt (s : State) (i : Int) : Int :=
  match s.list.nodes i with
  | none => 0
  | some a =>
    match s.heap a with
    | none => 0
    | some c => c.value

/-- The logical sequence: the values at positions `0 .. size - 1` of the index array. -/
def contents (s : State) : List Int :=
  List.map (fun (k : Nat) => valueAt s (Int.ofNat k)) (List.range s.list.size.toNat)

/-- Reference model of one call on a plain list: an in-range `insert` inserts
the value at that position, an in-range `removeAt` erases that position, an
out-of-range call is skipped. -/
def refStep (xs : List Int) : Op → List Int
  | .insert index value _ =>
    if 0 ≤ index ∧ index ≤ xs.length then xs.insertIdx index.toNat value else xs
  | .removeAt index =>
    if 0 ≤ index ∧ index < xs.length then xs.eraseIdx index.toNat else xs

/-- Reference model of a call sequence, starting from the list `xs`. -/
def replay (xs : List Int) (ops : List Op) : List Int :=
  ops.foldl refStep xs

/-- The index array has room for one more element once `ensureCapacity` has run:
a slot is free, or the capacity can be doubled within the `int` range. -/
def HasRoom (s : State) : Prop :=
  s.list.size < s.list.capacity ∨ (0 < s.list.capacity ∧ s.list.capacity < 1073741824)

/-- What the environment must provide for the call `op` in state `s`: an
in-range `insert` is handed an unallocated address by `malloc` and finds fewer
than 2^30 elements in the list. -/
def callOk (s : State) : Op → Bool
  | .insert index _ addr =>
    !(decide (0 ≤ index ∧ index ≤ s.list.size)) ||
      ((s.heap addr).isNone && decide (s.list.size < 1073741824))
  | .removeAt _ => true

/-- The condition `callOk` holds at every call of the sequence `ops` run from `s`. -/
def feasible : List Op → State → Bool
  | [], _ => true
  | op :: ops, s =>
    callOk s op &&
      match step s op with
      | none => true
      | some s1 => feasible ops s1

/-- Number of `insert` calls of the run whose index was in `[0, size]` when called. -/
def insertsOk : List Op → State → Nat
  | [], _ => 0
  | op :: ops, s =>
    (match op with
      | .insert index _ _ => if 0 ≤ index ∧ index ≤ s.list.size then 1 else 0
      | .removeAt _ => 0) +
    (match step s op with
      | none => 0
      | some s1 => insertsOk ops s1)

/-- Number of `removeAt` calls of the run whose index was in `[0, size)` when called. -/
def removesOk : List Op → State → Nat
  | [], _ => 0
  | op :: ops, s =>
    (match op with
      | .insert _ _ _ => 0
      | .removeAt index => if 0 ≤ index ∧ index < s.list.size then 1 else 0) +
    (match step s op with
      | none => 0
      | some s1 => removesOk ops s1)

/-- The addresses `malloc` returns to the `insert` calls of a sequence. -/
def insertAddrs : List Op → List Nat
  | [] => []
  | .insert _ _ addr :: ops => addr :: insertAddrs ops
  | .removeAt _ :: ops => insertAddrs ops

/-! ## Concrete inputs -/

/-- The `k`-th call of the filling sequence: append the value 0, `malloc` returning address `k`. -/
def fillOp (k : Nat) : Op := .insert (Int.ofNat k) 0 k

/-- The call sequence that appends 2^30 elements to the list, one after the other. -/
def fill : List Op := List.map fillOp (List.range 1073741824)

/-- The filling sequence followed by one more append. -/
def overfill : List Op := fill ++ [fillOp 1073741824]

/-- A list holding 2^30 elements (all 0, the element at position `i` at address `i`)
whose index array is full: `size = capacity = 2^30`. -/
def fullList : State :=
  { heap := fun a =>
      if a < 1073741824 then
        some { value := 0, next := if a + 1 < 1073741824 then some (a + 1) else none }
      else none
    list := { head := some 0, tail := some 1073741823, nodes := fun i => some i.toNat,
              size := 1073741824, capacity := 1073741824 }
    out := [] }

/-- The calls of the scenario of the spec followed by two out-of-range calls. -/
def demoOps : List Op :=
  [.insert 0 10 1, .insert 1 20 2, .insert 1 15 3, .removeAt 0, .insert 5 1 4, .removeAt 2]

/-- The state after the first three calls of `demoOps`: the list 10, 15, 20. -/
def demoList : State :=
  (run (demoOps.take 3) (createList fun _ => none)).getD (createList fun _ => none)

/-! ## The caller of `get` and the printed format -/

/-- Case 3 of the menu loop in `main`, after `index` has been read:
`value = get(list, index); if (value != -1) printf("Value at index %d = %d\n", index, value)`. -/
def mainGet (s : State) (index : Int) : Option State :=
  (get (printf s "Enter index: ") index).map fun r =>
    if r.1 ≠ -1 then
      printf r.2 ("Value at index " ++ toString index ++ " = " ++ toString r.1 ++ "\n")
    else r.2

/-- The text `printList` leaves on standard output for the values `vs`, as the
code writes it: every value followed by ` -> `, then `NULL` and a line break. -/
def printedText (vs : List Int) : String :=
  String.join (vs.map fun v => toString v ++ " -> ") ++ "NULL\n"

/-- The format of the spec, `v1 -> v2 -> ... -> END`: every value followed by
the separator ` -> `, then the end marker `END`. -/
def specText (vs : List Int) : String :=
  String.join (vs.map fun v => toString v ++ " -> ") ++ "END"

/-- The reachable list that holds the single value -1 (at address 1). -/
def sentinelList : State :=
  (run [.insert 0 (-1) 1] (createList fun _ => none)).getD (createList fun _ => none)

/-! ## Data-model invariants -/

/-- The data-model invariants of the spec, stated on the representation: `size`
and `capacity` are `int` values and the index array has a slot for every
position (`0 ≤ size ≤ capacity ≤ INT_MAX`), `head` is the element at position 0
and `tail` the element at position `size - 1`, both empty when `size` is 0, and
the element at position `i` is allocated with the element at position `i + 1`
as its `next` link, empty for the last one. -/
structure Inv (s : State) : Prop where
  size_nonneg : 0 ≤ s.list.size
  size_le : s.list.size ≤ s.list.capacity
  cap_le : s.list.capacity ≤ INT_MAX
  head_eq : s.list.head = if s.list.size = 0 then none else s.list.nodes 0
  tail_eq : s.list.tail = if s.list.size = 0 then none else s.list.nodes (s.list.size - 1)
  cell : ∀ i, 0 ≤ i → i < s.list.size → ∃ a c, s.list.nodes i = some a ∧ s.heap a = some c ∧
    c.next = if i + 1 < s.list.size then s.list.nodes (i + 1) else none

/-- Every allocated node is an element of the list: it is referred to by a slot
of the index array below `size`. -/
def NoLeak (s : State) : Prop :=
  ∀ b, s.heap b ≠ none → ∃ i, 0 ≤ i ∧ i < s.list.size ∧ s.list.nodes i = some b

/-- What a successful `insert` leaves behind, field by field. -/
structure InsertPost (s : State) (index value : Int) (addr : Nat) (s1 : State) : Prop where
  out_eq : s1.out = s.out
  size_eq : s1.list.size = s.list.size + 1
  cap_eq : s1.list.capacity = (ensureCapacity s).list.capacity
  head_eq : s1.list.head = if index = 0 then some addr else s.list.head
  tail_eq : s1.list.tail = if index = s.list.size then some addr else s.list.tail
  nodes_eq : s1.list.nodes = fun j =>
    if j = index then some addr
    else if index < j ∧ j ≤ s.list.size then s.list.nodes (j - 1) else s.list.nodes j
  heap_new : s1.heap addr =
    some { value := value, next := if index < s.list.size then s.list.nodes index else none }
  heap_old : ∀ b, b ≠ addr → s1.heap b =
    if 0 < index ∧ s.list.nodes (index - 1) = some b then
      (s.heap b).map fun c => { c with next := some addr }
    else s.heap b

/-- What a successful `removeAt` leaves behind, field by field. -/
structure RemovePost (s : State) (index : Int) (s1 : State) : Prop where
  out_eq : s1.out = s.out
  size_eq : s1.list.size = s.list.size - 1
  cap_eq : s1.list.capacity = s.list.capacity
  head_eq : s1.list.head =
    if index = 0 then (if 1 < s.list.size then s.list.nodes 1 else none) else s.list.head
  tail_eq : s1.list.tail =
    if index = s.list.size - 1 then (if index > 0 then s.list.nodes (index - 1) else none)
    else s.list.tail
  nodes_eq : s1.list.nodes = fun j =>
    if index ≤ j ∧ j < s.list.size - 1 then s.list.nodes (j + 1) else s.list.nodes j
  heap_del : ∀ a, s.list.nodes index = some a → s1.heap a = none
  heap_old : ∀ b, s.list.nodes index ≠ some b → s1.heap b =
    if 0 < index ∧ s.list.nodes (index - 1) = some b then
      (s.heap b).map fun c =>
        { c with next := if index + 1 < s.list.size then s.list.nodes (index + 1) else none }
    else s.heap b

/-- The state of the filling sequence after `k` appends. -/
structure Filled (k : Nat) (s : State) : Prop where
  inv : Inv s
  size_eq : s.list.size = k
  cap_pow : ∃ e : Nat, 10 ≤ e ∧ e ≤ 30 ∧ s.list.capacity = 2 ^ e
  fresh : ∀ a, k ≤ a → s.heap a = none

/-! ## Loops -/

theorem shiftRight_eq (index : Int) : ∀ (fuel : Nat) (i : Int) (l : LinkedListADT),
    0 ≤ index → index ≤ i → i < l.capacity → fuel = (i - index).toNat →
    shiftRight index fuel i l =
      some { l with nodes := fun j => if index < j ∧ j ≤ i then l.nodes (j - 1) else l.nodes j } := by
  intro fuel
  induction fuel with
  | zero =>
    intro i l h0 hi hc hf
    have h1 : ¬ i > index := by omega
    have h2 : (fun j => if index < j ∧ j ≤ i then l.nodes (j - 1) else l.nodes j) = l.nodes := by
      funext j
      have : ¬ (index < j ∧ j ≤ i) := by omega
      simp [this]
    simp only [shiftRight, h1, if_false, h2]
  | succ n ih =>
    intro i l h0 hi hc hf
    have h1 : i > index := by omega
    have h2 : 0 ≤ i - 1 ∧ i - 1 < l.capacity := by omega
    have h3 : 0 ≤ i ∧ i < l.capacity := by omega
    simp only [shiftRight, h1, if_true, nodesRead, nodesWrite, h2, h3, and_self, Option.some_bind]
    rw [ih (i - 1) _ h0 (by omega) (by simpa using by omega) (by omega)]
    simp only [Option.some.injEq, LinkedListADT.mk.injEq, true_and, and_true]
    funext j
    by_cases hj : index < j ∧ j ≤ i - 1
    · have hj2 : index < j ∧ j ≤ i := by omega
      have hj3 : ¬ j - 1 = i := by omega
      simp [hj, hj2, hj3]
    · by_cases hji : j = i
      · subst hji
        simp [hj, h1]
      · have hj2 : ¬ (index < j ∧ j ≤ i) := by omega
        simp [hj, hj2, hji]

theorem shiftLeft_eq : ∀ (fuel : Nat) (i : Int) (l : LinkedListADT),
    0 ≤ i → l.size ≤ l.capacity → fuel = (l.size - 1 - i).toNat →
    shiftLeft fuel i l =
      some { l with nodes := fun j => if i ≤ j ∧ j < l.size - 1 then l.nodes (j + 1) else l.nodes j } := by
  intro fuel
  induction fuel with
  | zero =>
    intro i l h0 hc hf
    have h1 : ¬ i < l.size - 1 := by omega
    have h2 : (fun j => if i ≤ j ∧ j < l.size - 1 then l.nodes (j + 1) else l.nodes j) = l.nodes := by
      funext j
      have : ¬ (i ≤ j ∧ j < l.size - 1) := by omega
      simp [this]
    simp only [shiftLeft, h1, if_false, h2]
  | succ n ih =>
    intro i l h0 hc hf
    have h1 : i < l.size - 1 := by omega
    have h2 : 0 ≤ i + 1 ∧ i + 1 < l.capacity := by omega
    have h3 : 0 ≤ i ∧ i < l.capacity := by omega
    simp only [shiftLeft, h1, if_true, nodesRead, nodesWrite, h2, h3, and_self, Option.some_bind]
    rw [ih (i + 1) _ (by omega) (by simpa using hc) (by simpa using by omega)]
    simp only [Option.some.injEq, LinkedListADT.mk.injEq, true_and, and_true]
    funext j
    by_cases hj : i + 1 ≤ j ∧ j < l.size - 1
    · have hj2 : i ≤ j ∧ j < l.size - 1 := by omega
      have hj3 : ¬ j + 1 = i := by omega
      have hj4 : ¬ j = i := by omega
      simp [hj, hj2, hj3, hj4]
    · by_cases hji : j = i
      · subst hji
        have hj5 : ¬ j + 1 = j := by omega
        simp [hj, h1, hj5]
      · have hj2 : ¬ (i ≤ j ∧ j < l.size - 1) := by omega
        simp [hj, hj2, hji]

/-! ## Basic facts -/

theorem wrap32_of_range (x : Int) (h1 : -2147483648 ≤ x) (h2 : x ≤ 2147483647) : wrap32 x = x := by
  unfold wrap32; omega

theorem wrap32_le (x : Int) : wrap32 x ≤ INT_MAX := by
  unfold wrap32 INT_MAX; omega

@[simp] theorem ensureCapacity_heap (s : State) : (ensureCapacity s).heap = s.heap := by
  unfold ensureCapacity; split <;> rfl

@[simp] theorem ensureCapacity_out (s : State) : (ensureCapacity s).out = s.out := by
  unfold ensureCapacity; split <;> rfl

@[simp] theorem ensureCapacity_size (s : State) : (ensureCapacity s).list.size = s.list.size := by
  unfold ensureCapacity; split <;> rfl

@[simp] theorem ensureCapacity_nodes (s : State) : (ensureCapacity s).list.nodes = s.list.nodes := by
  unfold ensureCapacity; split <;> rfl

@[simp] theorem ensureCapacity_head (s : State) : (ensureCapacity s).list.head = s.list.head := by
  unfold ensureCapacity; split <;> rfl

@[simp] theorem ensureCapacity_tail (s : State) : (ensureCapacity s).list.tail = s.list.tail := by
  unfold ensureCapacity; split <;> rfl

theorem ensureCapacity_cap_le (s : State) (h : s.list.capacity ≤ INT_MAX) :
    (ensureCapacity s).list.capacity ≤ INT_MAX := by
  unfold ensureCapacity; split
  · exact wrap32_le _
  · exact h

/-- Under the invariants two different positions hold different elements. -/
theorem Inv.ne_of_lt {s : State} (h : Inv s) : ∀ (k : Nat) (i j : Int), 0 ≤ i → i < j →
    j < s.list.size → (s.list.size - 1 - j).toNat = k → s.list.nodes i ≠ s.list.nodes j := by
  intro k
  induction k with
  | zero =>
    intro i j hi hij hj hk e
    obtain ⟨a, c, h1, h2, h3⟩ := h.cell i hi (by omega)
    obtain ⟨a2, c2, h4, h5, h6⟩ := h.cell j (by omega) hj
    obtain ⟨a3, c3, h7, -, -⟩ := h.cell (i + 1) (by omega) (by omega)
    have e1 : a = a2 := by rw [h1, h4] at e; exact Option.some.inj e
    subst e1
    have e2 : c = c2 := by rw [h2] at h5; exact Option.some.inj h5
    subst e2
    have c1 : i + 1 < s.list.size := by omega
    have c2 : ¬ j + 1 < s.list.size := by omega
    rw [if_pos c1, h7] at h3
    rw [if_neg c2] at h6
    rw [h3] at h6
    exact Option.noConfusion h6
  | succ n ih =>
    intro i j hi hij hj hk e
    obtain ⟨a, c, h1, h2, h3⟩ := h.cell i hi (by omega)
    obtain ⟨a2, c2, h4, h5, h6⟩ := h.cell j (by omega) hj
    have e1 : a = a2 := by rw [h1, h4] at e; exact Option.some.inj e
    subst e1
    have e2 : c = c2 := by rw [h2] at h5; exact Option.some.inj h5
    subst e2
    have c1 : i + 1 < s.list.size := by omega
    have c2 : j + 1 < s.list.size := by omega
    rw [if_pos c1] at h3
    rw [if_pos c2] at h6
    exact ih (i + 1) (j + 1) (by omega) (by omega) c2 (by omega) (h3.symm.trans h6)

/-- Under the invariants the index array holds each element once. -/
theorem Inv.inj {s : State} (h : Inv s) (i j : Int) (hi : 0 ≤ i) (hi2 : i < s.list.size)
    (hj : 0 ≤ j) (hj2 : j < s.list.size) (e : s.list.nodes i = s.list.nodes j) : i = j := by
  rcases lt_trichotomy i j with c | c | c
  · exact absurd e (h.ne_of_lt _ i j hi c hj2 rfl)
  · exact c
  · exact absurd e.symm (h.ne_of_lt _ j i hj c hi2 rfl)

theorem insert_finish (s1 : State) (index : Int) (addr : Nat) (h0 : 0 ≤ index)
    (h1 : index ≤ s1.list.size) (hc : s1.list.size < s1.list.capacity)
    (hcap : s1.list.capacity ≤ 2147483647) :
    ((shiftRight index (s1.list.size - index).toNat s1.list.size s1.list).bind fun l1 =>
      (nodesWrite l1 index (some addr)).bind fun l2 =>
      some { s1 with list := { l2 with size := wrap32 (l2.size + 1) } }) =
    some { s1 with list := { s1.list with
      nodes := fun j =>
        if j = index then some addr
        else if index < j ∧ j ≤ s1.list.size then s1.list.nodes (j - 1) else s1.list.nodes j
      size := s1.list.size + 1 } } := by
  have hw : wrap32 (s1.list.size + 1) = s1.list.size + 1 := wrap32_of_range _ (by omega) (by omega)
  have hi : 0 ≤ index ∧ index < s1.list.capacity := by omega
  rw [shiftRight_eq index _ _ _ h0 h1 hc rfl]
  simp only [Option.some_bind, nodesWrite, hi, and_self, if_true, hw]

theorem linkNew_post {s : State} (h : Inv s) (sA : State) (index value : Int) (addr : Nat)
    (h0 : 0 ≤ index) (h1 : index ≤ s.list.size) (hf : s.heap addr = none)
    (hc : s.list.size < sA.list.capacity)
    (hA : sA.heap = heapSet s.heap addr (some { value := value, next := none }))
    (hhead : sA.list.head = s.list.head) (htail : sA.list.tail = s.list.tail)
    (hnodes : sA.list.nodes = s.list.nodes) (hsize : sA.list.size = s.list.size) :
    ∃ sL, linkNew sA index addr = some sL ∧ sL.out = sA.out ∧ sL.list.nodes = s.list.nodes ∧
      sL.list.size = s.list.size ∧ sL.list.capacity = sA.list.capacity ∧
      sL.list.head = (if index = 0 then some addr else s.list.head) ∧
      sL.list.tail = (if index = s.list.size then some addr else s.list.tail) ∧
      sL.heap addr =
        some { value := value, next := if index < s.list.size then s.list.nodes index else none } ∧
      ∀ b, b ≠ addr → sL.heap b =
        if 0 < index ∧ s.list.nodes (index - 1) = some b then
          (s.heap b).map fun c => { c with next := some addr }
        else s.heap b := by
  by_cases c0 : index = 0
  · subst c0
    have hh : s.list.head = if 0 < s.list.size then s.list.nodes 0 else none := by
      rw [h.head_eq]
      by_cases c : s.list.size = 0
      · simp [c]
      · have : 0 < s.list.size := by have := h.size_nonneg; omega
        simp [c, this]
    simp only [linkNew, if_true, setNext, hA, heapSet, Option.some_bind, hsize]
    by_cases c : s.list.size = 0
    · rw [if_pos c]
      refine ⟨_, rfl, ?_⟩
      simp [hnodes, hsize, hhead, htail, hh, c, heapSet]
      intro b hb
      simp [hb]
    · rw [if_neg c]
      have c2 : ¬ 0 = s.list.size := fun e => c e.symm
      refine ⟨_, rfl, ?_⟩
      simp [hnodes, hsize, hhead, htail, hh, c, c2, heapSet]
      intro b hb
      simp [hb]
  · have hpos : 0 < index := by omega
    obtain ⟨q, cq, hq1, hq2, hq3⟩ := h.cell (index - 1) (by omega) (by omega)
    have hqa : q ≠ addr := by
      intro e; rw [e, hf] at hq2; exact Option.noConfusion hq2
    have haq : ¬ addr = q := fun e => hqa e.symm
    by_cases c1 : index = s.list.size
    · subst c1
      have ht : s.list.tail = some q := by
        rw [h.tail_eq, if_neg c0, hq1]
      have c3 : s.list.size = sA.list.size := hsize.symm
      unfold linkNew
      rw [if_neg c0, if_pos c3]
      simp only [htail, ht, setNext, hA, heapSet, hqa, if_false, hq2, Option.some_bind]
      refine ⟨_, rfl, ?_⟩
      simp [hnodes, hsize, hhead, htail, heapSet, c0, hq1, haq]
      intro b hb
      by_cases hbq : b = q
      · subst hbq; simp [hq2, hq1, hpos]
      · have : ¬ q = b := fun e => hbq e.symm
        simp [hbq, hb, this, hq1]
    · have hlt : index < s.list.size := by omega
      have hrd : 0 ≤ index - 1 ∧ index - 1 < sA.list.capacity := by omega
      have c3 : ¬ index = sA.list.size := by rw [hsize]; exact c1
      rw [if_pos (by omega)] at hq3
      unfold linkNew
      rw [if_neg c0, if_neg c3]
      simp only [nodesRead, hrd, and_self, if_true, hnodes, hq1,
        deref, setNext, hA, heapSet, hqa, if_false, hq2, Option.some_bind]
      refine ⟨_, rfl, ?_⟩
      simp [hnodes, hsize, hhead, htail, heapSet, c1, c0, hq1, hlt, hq3, haq]
      intro b hb
      by_cases hbq : b = q
      · subst hbq; simp [hpos, hq2]
      · have : ¬ q = b := fun e => hbq e.symm
        simp [hbq, hb, this]

theorem insert_post {s : State} (h : Inv s) (index value : Int) (addr : Nat)
    (h0 : 0 ≤ index) (h1 : index ≤ s.list.size) (hf : s.heap addr = none)
    (hc : s.list.size < (ensureCapacity s).list.capacity) :
    ∃ s1, insert s index value addr = some s1 ∧ InsertPost s index value addr s1 := by
  have hr : ¬ (index < 0 ∨ index > s.list.size) := by omega
  have hcap := ensureCapacity_cap_le s h.cap_le
  unfold INT_MAX at hcap
  simp only [insert, hr, if_false, createNode, ensureCapacity_heap, hf, Option.some_bind]
  obtain ⟨sL, e, hout, hnodes, hsize, hcapL, hhead, htail, hnew, hold⟩ :=
    linkNew_post h { ensureCapacity s with
        heap := heapSet s.heap addr (some { value := value, next := none }) }
      index value addr h0 h1 hf hc rfl (by simp) (by simp) (by simp) (by simp)
  simp only [ensureCapacity_heap] at e
  rw [e]
  simp only [Option.some_bind]
  rw [insert_finish sL index addr h0 (by omega) (by rw [hsize, hcapL]; exact hc)
    (by rw [hcapL]; exact hcap)]
  refine ⟨_, rfl, ?_⟩
  constructor <;> simp [hout, hnodes, hsize, hcapL, hhead, htail, hnew]
  exact hold

theorem Inv.fresh_ne {s : State} (h : Inv s) {addr : Nat} (hf : s.heap addr = none) (i : Int)
    (hi : 0 ≤ i) (hi2 : i < s.list.size) : s.list.nodes i ≠ some addr := by
  intro e
  obtain ⟨a, c, h1, h2, -⟩ := h.cell i hi hi2
  rw [h1] at e
  rw [Option.some.inj e, hf] at h2
  exact Option.noConfusion h2

theorem InsertPost.nodes_at_insert {s s1 : State} {index value : Int} {addr : Nat}
    (hp : InsertPost s index value addr s1) (j : Int) :
    s1.list.nodes j = if j = index then some addr
      else if index < j ∧ j ≤ s.list.size then s.list.nodes (j - 1) else s.list.nodes j := by
  rw [hp.nodes_eq]

/-- A successful in-range `insert` re-establishes the invariants. -/
theorem InsertPost.inv_after_insert {s s1 : State} {index value : Int} {addr : Nat} (h : Inv s)
    (hp : InsertPost s index value addr s1) (h0 : 0 ≤ index) (h1 : index ≤ s.list.size)
    (hf : s.heap addr = none) (hc : s.list.size < (ensureCapacity s).list.capacity) : Inv s1 := by
  have hsz := h.size_nonneg
  constructor
  · rw [hp.size_eq]; omega
  · rw [hp.size_eq, hp.cap_eq]; omega
  · rw [hp.cap_eq]; exact ensureCapacity_cap_le s h.cap_le
  · rw [hp.head_eq, hp.size_eq, hp.nodes_at_insert, h.head_eq]
    split_ifs <;> first | rfl | (exfalso; omega)
  · rw [hp.tail_eq, hp.size_eq, hp.nodes_at_insert, h.tail_eq]
    split_ifs <;> first | rfl | (exfalso; omega) | (congr 1; omega)
  · intro i hi hi2
    rw [hp.size_eq] at hi2
    rw [hp.size_eq, hp.nodes_at_insert, hp.nodes_at_insert]
    rcases lt_trichotomy i index with c | c | c
    · obtain ⟨a, cl, e1, e2, e3⟩ := h.cell i hi (by omega)
      have ha : a ≠ addr := by
        intro e; rw [e, hf] at e2; exact Option.noConfusion e2
      have k1 : ¬ i = index := by omega
      have k2 : ¬ (index < i ∧ i ≤ s.list.size) := by omega
      rw [if_neg k1, if_neg k2, e1]
      by_cases c2 : i = index - 1
      · have e4 : s.list.nodes (index - 1) = some a := by rw [← c2]; exact e1
        have k3 : 0 < index := by omega
        have k4 : i + 1 < s.list.size + 1 := by omega
        have k5 : i + 1 = index := by omega
        refine ⟨a, { cl with next := some addr }, rfl, ?_, ?_⟩
        · rw [hp.heap_old a ha, if_pos ⟨k3, e4⟩, e2]; rfl
        · rw [if_pos k4, if_pos k5]
      · have e4 : ¬ (0 < index ∧ s.list.nodes (index - 1) = some a) := by
          rintro ⟨-, e⟩
          exact c2 (h.inj i (index - 1) hi (by omega) (by omega) (by omega) (e1.trans e.symm))
        refine ⟨a, cl, rfl, ?_, ?_⟩
        · rw [hp.heap_old a ha, if_neg e4, e2]
        · rw [e3]
          split_ifs <;> first | rfl | (exfalso; omega)
    · subst c
      refine ⟨addr, _, by rw [if_pos rfl], hp.heap_new, ?_⟩
      show (if i < s.list.size then s.list.nodes i else none) = _
      split_ifs <;> first | rfl | (exfalso; omega) | (congr 1; omega)
    · obtain ⟨a, cl, e1, e2, e3⟩ := h.cell (i - 1) (by omega) (by omega)
      have ha : a ≠ addr := by
        intro e; rw [e, hf] at e2; exact Option.noConfusion e2
      have e4 : ¬ (0 < index ∧ s.list.nodes (index - 1) = some a) := by
        rintro ⟨hpos, e⟩
        have := h.inj (i - 1) (index - 1) (by omega) (by omega) (by omega) (by omega)
          (e1.trans e.symm)
        omega
      have k1 : ¬ i = index := by omega
      have k2 : index < i ∧ i ≤ s.list.size := by omega
      rw [if_neg k1, if_pos k2, e1]
      refine ⟨a, cl, rfl, ?_, ?_⟩
      · rw [hp.heap_old a ha, if_neg e4, e2]
      · rw [e3]
        split_ifs <;> first | rfl | (exfalso; omega) | (congr 1; omega)

theorem remove_finish (s2 : State) (index : Int) (d : Nat) (cd : Node) (h0 : 0 ≤ index)
    (hc : s2.list.size ≤ s2.list.capacity) (hd : s2.heap d = some cd) :
    ((shiftLeft (s2.list.size - 1 - index).toNat index s2.list).bind fun l1 =>
      (free { s2 with list := l1 } (some d)).bind fun s3 =>
      some { s3 with list := { s3.list with size := s3.list.size - 1 } }) =
    some { heap := heapSet s2.heap d none
           list := { s2.list with
             nodes := fun j =>
               if index ≤ j ∧ j < s2.list.size - 1 then s2.list.nodes (j + 1) else s2.list.nodes j
             size := s2.list.size - 1 }
           out := s2.out } := by
  rw [shiftLeft_eq _ index _ h0 hc rfl]
  simp only [Option.some_bind, free, hd]

theorem unlink_post {s : State} (h : Inv s) (index : Int) (h0 : 0 ≤ index)
    (h1 : index < s.list.size) (d : Nat) (cd : Node) (hd1 : s.list.nodes index = some d)
    (hd2 : s.heap d = some cd) :
    ∃ sU, unlink s index (some d) = some sU ∧ sU.out = s.out ∧ sU.list.nodes = s.list.nodes ∧
      sU.list.size = s.list.size ∧ sU.list.capacity = s.list.capacity ∧
      sU.list.tail = s.list.tail ∧
      sU.list.head = (if index = 0 then cd.next else s.list.head) ∧
      sU.heap d = some cd ∧
      ∀ b, b ≠ d → sU.heap b =
        if 0 < index ∧ s.list.nodes (index - 1) = some b then
          (s.heap b).map fun c => { c with next := cd.next }
        else s.heap b := by
  have hcap := h.size_le
  by_cases c0 : index = 0
  · subst c0
    have hh : s.list.head = some d := by rw [h.head_eq, if_neg (by omega), hd1]
    simp only [unlink, if_true, deref, hh, hd2, Option.some_bind]
    refine ⟨_, rfl, ?_⟩
    simp [hd2]
  · obtain ⟨q, cq, hq1, hq2, -⟩ := h.cell (index - 1) (by omega) (by omega)
    have hqd : q ≠ d := by
      intro e
      have := h.inj (index - 1) index (by omega) (by omega) h0 h1 (by rw [hq1, hd1, e])
      omega
    have hdq : ¬ d = q := fun e => hqd e.symm
    have hrd : 0 ≤ index - 1 ∧ index - 1 < s.list.capacity := by omega
    have hpos : 0 < index := by omega
    simp only [unlink, c0, if_false, nodesRead, hrd, and_self, if_true, deref, hd2, hq1, setNext,
      hq2, Option.some_bind]
    refine ⟨_, rfl, ?_⟩
    simp [heapSet, hdq, hd2, c0, hq1, hpos]
    intro b hb
    by_cases hbq : b = q
    · subst hbq; simp [hq2]
    · have : ¬ q = b := fun e => hbq e.symm
      simp [hbq, this]

theorem fixTail_eq (sU : State) (index : Int) (hc : sU.list.size ≤ sU.list.capacity) :
    fixTail sU index = some { sU with list := { sU.list with
      tail := if index = sU.list.size - 1 then
          (if index > 0 then sU.list.nodes (index - 1) else none)
        else sU.list.tail } } := by
  unfold fixTail
  by_cases c : index = sU.list.size - 1
  · rw [if_pos c, if_pos c]
    by_cases c2 : index > 0
    · have hrd : 0 ≤ index - 1 ∧ index - 1 < sU.list.capacity := by omega
      rw [if_pos c2, if_pos c2]
      simp only [nodesRead, hrd, and_self, if_true, Option.some_bind]
    · rw [if_neg c2, if_neg c2]
  · rw [if_neg c, if_neg c]

theorem removeAt_post {s : State} (h : Inv s) (index : Int) (h0 : 0 ≤ index)
    (h1 : index < s.list.size) :
    ∃ s1, removeAt s index = some s1 ∧ RemovePost s index s1 := by
  have hr : ¬ (index < 0 ∨ index ≥ s.list.size) := by omega
  have hcap := h.size_le
  obtain ⟨d, cd, hd1, hd2, hd3⟩ := h.cell index h0 h1
  have hrd : 0 ≤ index ∧ index < s.list.capacity := by omega
  obtain ⟨sU, e, hout, hnodes, hsize, hcapU, htail, hhead, hhd, hold⟩ :=
    unlink_post h index h0 h1 d cd hd1 hd2
  simp only [removeAt, hr, if_false, nodesRead, hrd, and_self, if_true, Option.some_bind, hd1, e]
  rw [fixTail_eq sU index (by omega)]
  simp only [Option.some_bind]
  refine ⟨_, remove_finish { sU with list := { sU.list with
      tail := if index = sU.list.size - 1 then
          (if index > 0 then sU.list.nodes (index - 1) else none)
        else sU.list.tail } } index d cd h0 (by simpa [hsize, hcapU] using hcap) hhd, ?_⟩
  constructor <;> simp [hout, hnodes, hsize, hcapU, hhead, htail, hd1, heapSet]
  · split_ifs <;> first | rfl | (rw [hd3]; simp_all)
  · intro b hb
    have : ¬ b = d := fun e => hb e.symm
    rw [if_neg this, hold b this, hd3]
    
theorem RemovePost.nodes_at_remove {s s1 : State} {index : Int} (hp : RemovePost s index s1) (j : Int) :
    s1.list.nodes j =
      if index ≤ j ∧ j < s.list.size - 1 then s.list.nodes (j + 1) else s.list.nodes j := by
  rw [hp.nodes_eq]

/-- A successful in-range `removeAt` re-establishes the invariants. -/
theorem RemovePost.inv_after_remove {s s1 : State} {index : Int} (h : Inv s) (hp : RemovePost s index s1)
    (h0 : 0 ≤ index) (h1 : index < s.list.size) : Inv s1 := by
  have hsz := h.size_le
  obtain ⟨d, cd, hd1, hd2, hd3⟩ := h.cell index h0 h1
  constructor
  · rw [hp.size_eq]; omega
  · rw [hp.size_eq, hp.cap_eq]; omega
  · rw [hp.cap_eq]; exact h.cap_le
  · rw [hp.head_eq, hp.size_eq, hp.nodes_at_remove, h.head_eq]
    split_ifs <;> first | rfl | (exfalso; omega)
  · rw [hp.tail_eq, hp.size_eq, hp.nodes_at_remove, h.tail_eq]
    split_ifs <;> first | rfl | (exfalso; omega) | (congr 1; omega)
  · intro i hi hi2
    rw [hp.size_eq] at hi2
    rw [hp.size_eq, hp.nodes_at_remove, hp.nodes_at_remove]
    by_cases c : i < index
    · obtain ⟨a, cl, e1, e2, e3⟩ := h.cell i hi (by omega)
      have ha : s.list.nodes index ≠ some a := by
        intro e
        have := h.inj i index hi (by omega) h0 h1 (e1.trans e.symm)
        omega
      have k1 : ¬ (index ≤ i ∧ i < s.list.size - 1) := by omega
      rw [if_neg k1, e1]
      by_cases c2 : i = index - 1
      · have e4 : s.list.nodes (index - 1) = some a := by rw [← c2]; exact e1
        have k3 : 0 < index := by omega
        refine ⟨a, { cl with
          next := if index + 1 < s.list.size then s.list.nodes (index + 1) else none }, rfl, ?_, ?_⟩
        · rw [hp.heap_old a ha, if_pos ⟨k3, e4⟩, e2]; rfl
        · show (if index + 1 < s.list.size then s.list.nodes (index + 1) else none) = _
          split_ifs <;> first | rfl | (exfalso; omega) | (congr 1; omega)
      · have e4 : ¬ (0 < index ∧ s.list.nodes (index - 1) = some a) := by
          rintro ⟨-, e⟩
          exact c2 (h.inj i (index - 1) hi (by omega) (by omega) (by omega) (e1.trans e.symm))
        refine ⟨a, cl, rfl, ?_, ?_⟩
        · rw [hp.heap_old a ha, if_neg e4, e2]
        · rw [e3]
          split_ifs <;> first | rfl | (exfalso; omega)
    · obtain ⟨a, cl, e1, e2, e3⟩ := h.cell (i + 1) (by omega) (by omega)
      have ha : s.list.nodes index ≠ some a := by
        intro e
        have := h.inj (i + 1) index (by omega) (by omega) h0 h1 (e1.trans e.symm)
        omega
      have e4 : ¬ (0 < index ∧ s.list.nodes (index - 1) = some a) := by
        rintro ⟨hpos, e⟩
        have := h.inj (i + 1) (index - 1) (by omega) (by omega) (by omega) (by omega)
          (e1.trans e.symm)
        omega
      have k2 : index ≤ i ∧ i < s.list.size - 1 := by omega
      rw [if_pos k2, e1]
      refine ⟨a, cl, rfl, ?_, ?_⟩
      · rw [hp.heap_old a ha, if_neg e4, e2]
      · rw [e3]
        split_ifs <;> first | rfl | (exfalso; omega)

theorem createList_inv (junk : Int → Ptr) : Inv (createList junk) := by
  constructor <;> simp [createList, INT_MAX]

theorem printf_inv {s : State} (h : Inv s) (t : String) : Inv (printf s t) :=
  ⟨h.size_nonneg, h.size_le, h.cap_le, h.head_eq, h.tail_eq, h.cell⟩

theorem setNext_list {s s1 : State} {p q : Ptr} (e : setNext s p q = some s1) :
    s1.list = s.list := by
  unfold setNext at e
  split at e
  · exact Option.noConfusion e
  · split at e
    · exact Option.noConfusion e
    · rw [← Option.some.inj e]

theorem linkNew_list {s s1 : State} {index : Int} {a : Nat} (e : linkNew s index a = some s1) :
    s1.list.size = s.list.size ∧ s1.list.capacity = s.list.capacity := by
  unfold linkNew at e
  split at e
  · obtain ⟨s2, e2, e3⟩ := Option.bind_eq_some.mp e
    have hl := setNext_list e2
    simp only at e3
    split at e3 <;> (rw [← Option.some.inj e3]; simp [hl])
  · split at e
    · obtain ⟨s2, e2, e3⟩ := Option.bind_eq_some.mp e
      have hl := setNext_list e2
      rw [← Option.some.inj e3]; simp [hl]
    · obtain ⟨prev, -, e3⟩ := Option.bind_eq_some.mp e
      obtain ⟨c, -, e4⟩ := Option.bind_eq_some.mp e3
      obtain ⟨s2, e5, e6⟩ := Option.bind_eq_some.mp e4
      rw [setNext_list e6, setNext_list e5]
      exact ⟨rfl, rfl⟩

theorem shiftRight_full (index : Int) (fuel : Nat) (i : Int) (l : LinkedListADT)
    (h1 : index < i) (h2 : l.capacity ≤ i) : shiftRight index fuel i l = none := by
  have k : ¬ (0 ≤ i ∧ i < l.capacity) := by omega
  cases fuel with
  | zero => simp [shiftRight, h1]
  | succ n =>
    simp only [shiftRight, gt_iff_lt, h1, if_true]
    cases nodesRead l (i - 1) with
    | none => rfl
    | some p => simp [nodesWrite, k]

theorem shiftRight_cap (index : Int) : ∀ (fuel : Nat) (i : Int) (l l1 : LinkedListADT),
    shiftRight index fuel i l = some l1 → l1.capacity = l.capacity := by
  intro fuel
  induction fuel with
  | zero =>
    intro i l l1 e
    unfold shiftRight at e
    split at e
    · exact Option.noConfusion e
    · rw [← Option.some.inj e]
  | succ n ih =>
    intro i l l1 e
    unfold shiftRight at e
    split at e
    · obtain ⟨p, -, e2⟩ := Option.bind_eq_some.mp e
      obtain ⟨l2, e3, e4⟩ := Option.bind_eq_some.mp e2
      rw [ih _ _ _ e4]
      unfold nodesWrite at e3
      split at e3
      · rw [← Option.some.inj e3]
      · exact Option.noConfusion e3
    · rw [← Option.some.inj e]

/-- An in-range `insert` that returns has found room in the index array and
was given an unallocated address. -/
theorem insert_some_room {s s1 : State} {index value : Int} {addr : Nat}
    (h0 : 0 ≤ index) (h1 : index ≤ s.list.size) (e : insert s index value addr = some s1) :
    s.heap addr = none ∧ s.list.size < (ensureCapacity s).list.capacity := by
  have hr : ¬ (index < 0 ∨ index > s.list.size) := by omega
  simp only [insert, hr, if_false] at e
  obtain ⟨r, e1, e2⟩ := Option.bind_eq_some.mp e
  have hf : s.heap addr = none := by
    unfold createNode at e1
    rw [ensureCapacity_heap] at e1
    split at e1
    · exact Option.noConfusion e1
    · assumption
  refine ⟨hf, ?_⟩
  simp only [createNode, ensureCapacity_heap, hf] at e1
  have hr1 := Option.some.inj e1
  obtain ⟨sL, e3, e4⟩ := Option.bind_eq_some.mp e2
  obtain ⟨hs, hcp⟩ := linkNew_list e3
  rw [← hr1] at hs hcp
  simp only [ensureCapacity_size] at hs
  simp only at hcp
  obtain ⟨l1, e5, e6⟩ := Option.bind_eq_some.mp e4
  obtain ⟨l2, e7, -⟩ := Option.bind_eq_some.mp e6
  by_contra hc
  have hcl := shiftRight_cap index _ _ _ _ e5
  by_cases c : index < s.list.size
  · rw [shiftRight_full index _ _ _ (by omega) (by omega)] at e5
    exact Option.noConfusion e5
  · have k : ¬ (0 ≤ index ∧ index < l1.capacity) := by omega
    simp [nodesWrite, k] at e7

theorem insert_inv {s s1 : State} {index value : Int} {addr : Nat} (h : Inv s)
    (e : insert s index value addr = some s1) : Inv s1 := by
  by_cases hr : index < 0 ∨ index > s.list.size
  · simp only [insert, hr, if_true] at e
    rw [← Option.some.inj e]
    exact printf_inv h _
  · have h0 : 0 ≤ index := by omega
    have h1 : index ≤ s.list.size := by omega
    obtain ⟨hf, hc⟩ := insert_some_room h0 h1 e
    obtain ⟨s2, e2, hp⟩ := insert_post h index value addr h0 h1 hf hc
    rw [e] at e2
    rw [Option.some.inj e2]
    exact hp.inv_after_insert h h0 h1 hf hc

theorem removeAt_inv {s s1 : State} {index : Int} (h : Inv s)
    (e : removeAt s index = some s1) : Inv s1 := by
  by_cases hr : index < 0 ∨ index ≥ s.list.size
  · simp only [removeAt, hr, if_true] at e
    rw [← Option.some.inj e]
    exact printf_inv h _
  · have h0 : 0 ≤ index := by omega
    have h1 : index < s.list.size := by omega
    obtain ⟨s2, e2, hp⟩ := removeAt_post h index h0 h1
    rw [e] at e2
    rw [Option.some.inj e2]
    exact hp.inv_after_remove h h0 h1

/-- Every reachable state satisfies the data-model invariants. -/
theorem Reachable.inv {s : State} (hr : Reachable s) : Inv s := by
  induction hr with
  | create junk => exact createList_inv junk
  | insert index value addr _ e ih => exact insert_inv ih e
  | removeAt index _ e ih => exact removeAt_inv ih e

/-! ## The logical sequence under `insert` and `removeAt` -/

theorem Inv.get_eq {s : State} (h : Inv s) (i : Int) (h0 : 0 ≤ i) (h1 : i < s.list.size) :
    get s i = some (valueAt s i, s) := by
  have hr : ¬ (i < 0 ∨ i ≥ s.list.size) := by omega
  have hsz := h.size_le
  have hrd : 0 ≤ i ∧ i < s.list.capacity := by omega
  obtain ⟨a, c, e1, e2, -⟩ := h.cell i h0 h1
  simp [get, hr, nodesRead, hrd, e1, deref, e2, valueAt]

theorem InsertPost.valueAt_insert {s s1 : State} {index value : Int} {addr : Nat} (h : Inv s)
    (hp : InsertPost s index value addr s1) (h0 : 0 ≤ index) (h1 : index ≤ s.list.size)
    (hf : s.heap addr = none) (j : Int) (hj : 0 ≤ j) (hj2 : j ≤ s.list.size) :
    valueAt s1 j =
      if j < index then valueAt s j else if j = index then value else valueAt s (j - 1) := by
  have key : ∀ i, 0 ≤ i → i < s.list.size →
      (match s.list.nodes i with
        | none => (0 : Int)
        | some a => match s1.heap a with
          | none => 0
          | some c => c.value) = valueAt s i := by
    intro i hi hi2
    obtain ⟨a, c, e1, e2, -⟩ := h.cell i hi hi2
    have ha : a ≠ addr := by
      intro e; rw [e, hf] at e2; exact Option.noConfusion e2
    have := hp.heap_old a ha
    unfold valueAt
    rw [e1]
    simp only
    rw [this, e2]
    split_ifs <;> rfl
  unfold valueAt
  rw [hp.nodes_at_insert]
  rcases lt_trichotomy j index with c | c | c
  · have k1 : ¬ j = index := by omega
    have k2 : ¬ (index < j ∧ j ≤ s.list.size) := by omega
    rw [if_neg k1, if_neg k2, if_pos c]
    exact key j hj (by omega)
  · subst c
    rw [if_pos rfl, if_neg (lt_irrefl _), if_pos rfl]
    simp only [hp.heap_new]
  · have k1 : ¬ j = index := by omega
    have k2 : index < j ∧ j ≤ s.list.size := by omega
    have k3 : ¬ j < index := by omega
    rw [if_neg k1, if_pos k2, if_neg k3, if_neg k1]
    exact key (j - 1) (by omega) (by omega)

theorem RemovePost.valueAt_remove {s s1 : State} {index : Int} (h : Inv s)
    (hp : RemovePost s index s1) (h0 : 0 ≤ index) (h1 : index < s.list.size)
    (j : Int) (hj : 0 ≤ j) (hj2 : j < s.list.size - 1) :
    valueAt s1 j = if j < index then valueAt s j else valueAt s (j + 1) := by
  have key : ∀ i, 0 ≤ i → i < s.list.size → i ≠ index →
      (match s.list.nodes i with
        | none => (0 : Int)
        | some a => match s1.heap a with
          | none => 0
          | some c => c.value) = valueAt s i := by
    intro i hi hi2 hne
    obtain ⟨a, c, e1, e2, -⟩ := h.cell i hi hi2
    have ha : s.list.nodes index ≠ some a := by
      intro e
      exact hne (h.inj i index hi hi2 h0 h1 (e1.trans e.symm))
    have := hp.heap_old a ha
    unfold valueAt
    rw [e1]
    simp only
    rw [this, e2]
    split_ifs <;> rfl
  unfold valueAt
  rw [hp.nodes_at_remove]
  by_cases c : j < index
  · have k2 : ¬ (index ≤ j ∧ j < s.list.size - 1) := by omega
    rw [if_neg k2, if_pos c]
    exact key j hj (by omega) (by omega)
  · have k2 : index ≤ j ∧ j < s.list.size - 1 := by omega
    rw [if_pos k2, if_neg c]
    exact key (j + 1) (by omega) (by omega) (by omega)

theorem contents_length (s : State) : (contents s).length = s.list.size.toNat := by
  simp [contents]

theorem contents_getElem (s : State) (k : Nat) (hk : k < (contents s).length) :
    (contents s)[k] = valueAt s k := by
  simp [contents]

theorem InsertPost.contents_insert {s s1 : State} {index value : Int} {addr : Nat} (h : Inv s)
    (hp : InsertPost s index value addr s1) (h0 : 0 ≤ index) (h1 : index ≤ s.list.size)
    (hf : s.heap addr = none) :
    contents s1 = (contents s).insertIdx index.toNat value := by
  have hsz := h.size_nonneg
  have hlen : index.toNat ≤ (contents s).length := by rw [contents_length]; omega
  apply List.ext_getElem
  · rw [List.length_insertIdx _ _ hlen, contents_length, contents_length, hp.size_eq]
    omega
  · intro k hk1 hk2
    rw [contents_length, hp.size_eq] at hk1
    rw [contents_getElem, hp.valueAt_insert h h0 h1 hf k (by omega) (by omega)]
    rcases lt_trichotomy k index.toNat with c | c | c
    · have k1 : (k : Int) < index := by omega
      rw [if_pos k1, List.getElem_insertIdx_of_lt _ _ _ _ c (by rw [contents_length]; omega),
        contents_getElem]
    · subst c
      have k1 : ¬ ((index.toNat : Int) < index) := by omega
      have k2 : (index.toNat : Int) = index := by omega
      rw [if_neg k1, if_pos k2, List.getElem_insertIdx_self _ _ _ hlen]
    · have k1 : ¬ ((k : Int) < index) := by omega
      have k2 : ¬ ((k : Int) = index) := by omega
      obtain ⟨m, rfl⟩ : ∃ m, k = index.toNat + m + 1 := ⟨k - index.toNat - 1, by omega⟩
      rw [if_neg k1, if_neg k2,
        List.getElem_insertIdx_add_succ _ _ _ _ (by rw [contents_length]; omega),
        contents_getElem]
      congr 1
      omega

theorem RemovePost.contents_remove {s s1 : State} {index : Int} (h : Inv s)
    (hp : RemovePost s index s1) (h0 : 0 ≤ index) (h1 : index < s.list.size) :
    contents s1 = (contents s).eraseIdx index.toNat := by
  have hlen : index.toNat < (contents s).length := by rw [contents_length]; omega
  apply List.ext_getElem
  · rw [List.length_eraseIdx_of_lt hlen, contents_length, contents_length, hp.size_eq]
    omega
  · intro k hk1 hk2
    rw [contents_length, hp.size_eq] at hk1
    rw [contents_getElem, hp.valueAt_remove h h0 h1 k (by omega) (by omega)]
    by_cases c : k < index.toNat
    · have k1 : (k : Int) < index := by omega
      rw [if_pos k1, List.getElem_eraseIdx_of_lt _ _ _ _ c, contents_getElem]
    · have k1 : ¬ ((k : Int) < index) := by omega
      rw [if_neg k1, List.getElem_eraseIdx_of_ge _ _ _ _ (by omega), contents_getElem]
      congr 1

/-! ## Traversal -/

theorem Inv.traverse_from {s : State} (h : Inv s) : ∀ (k : Nat) (i : Int) (fuel : Nat),
    0 ≤ i → i + k = s.list.size → k ≤ fuel →
    traverse s.heap fuel (if i < s.list.size then s.list.nodes i else none) =
      some (List.map (fun (j : Nat) => valueAt s (i + Int.ofNat j)) (List.range k)) := by
  intro k
  induction k with
  | zero =>
    intro i fuel h0 h1 _
    have : ¬ i < s.list.size := by simp at h1; omega
    rw [if_neg this]
    cases fuel <;> simp [traverse]
  | succ n ih =>
    intro i fuel h0 h1 hfuel
    have hi : i < s.list.size := by push_cast at h1; omega
    obtain ⟨a, c, e1, e2, e3⟩ := h.cell i h0 hi
    obtain ⟨f, rfl⟩ : ∃ f, fuel = f + 1 := ⟨fuel - 1, by omega⟩
    rw [if_pos hi, e1]
    simp only [traverse, e2]
    rw [e3, ih (i + 1) f (by omega) (by push_cast at h1 ⊢; omega) (by omega)]
    simp only [Option.map_some', Option.some.injEq]
    rw [List.range_succ_eq_map, List.map_cons, List.map_map]
    congr 1
    · simp [valueAt, e1, e2]
    · apply List.map_congr_left
      intro j _
      simp only [Function.comp, Int.ofNat_eq_coe, Nat.succ_eq_add_one]
      congr 1
      push_cast
      omega

theorem Inv.walk_from {s : State} (h : Inv s) : ∀ (k : Nat) (i : Int) (fuel : Nat),
    0 ≤ i → i + k = s.list.size → k ≤ fuel →
    (walk s.heap fuel (if i < s.list.size then s.list.nodes i else none)).map (List.map some) =
      some (List.map (fun (j : Nat) => s.list.nodes (i + Int.ofNat j)) (List.range k)) := by
  intro k
  induction k with
  | zero =>
    intro i fuel h0 h1 _
    have : ¬ i < s.list.size := by simp at h1; omega
    rw [if_neg this]
    cases fuel <;> simp [walk]
  | succ n ih =>
    intro i fuel h0 h1 hfuel
    have hi : i < s.list.size := by push_cast at h1; omega
    obtain ⟨a, c, e1, e2, e3⟩ := h.cell i h0 hi
    obtain ⟨f, rfl⟩ : ∃ f, fuel = f + 1 := ⟨fuel - 1, by omega⟩
    rw [if_pos hi, e1]
    simp only [walk, e2]
    have := ih (i + 1) f (by omega) (by push_cast at h1 ⊢; omega) (by omega)
    rw [← e3] at this
    cases hw : walk s.heap f c.next with
    | none => rw [hw] at this; simp at this
    | some as =>
      rw [hw] at this
      simp only [Option.map_some', Option.some.injEq] at this ⊢
      rw [List.map_cons, this]
      simp only [List.range_succ_eq_map, List.map_cons, List.map_map]
      congr 1
      · simp [e1]
      · apply List.map_congr_left
        intro j _
        simp only [Function.comp, Int.ofNat_eq_coe, Nat.succ_eq_add_one]
        congr 1
        push_cast
        omega

theorem Inv.head_eq_ite {s : State} (h : Inv s) :
    s.list.head = if (0 : Int) < s.list.size then s.list.nodes 0 else none := by
  have := h.size_nonneg
  rw [h.head_eq]
  split_ifs <;> first | rfl | (exfalso; omega)

/-- Under the invariants the walk from `head` ends after `size` steps and meets
the values of the logical sequence in order. -/
theorem Inv.traverse_eq {s : State} (h : Inv s) (fuel : Nat) (hfuel : s.list.size.toNat ≤ fuel) :
    traverse s.heap fuel s.list.head = some (contents s) := by
  have := h.size_nonneg
  rw [h.head_eq_ite, h.traverse_from s.list.size.toNat 0 fuel (le_refl _) (by omega) hfuel]
  simp [contents]

theorem Inv.walk_eq {s : State} (h : Inv s) (fuel : Nat) (hfuel : s.list.size.toNat ≤ fuel) :
    (walk s.heap fuel s.list.head).map (List.map some) =
      some (List.map (fun (j : Nat) => s.list.nodes (Int.ofNat j)) (List.range s.list.size.toNat)) := by
  have := h.size_nonneg
  rw [h.head_eq_ite, h.walk_from s.list.size.toNat 0 fuel (le_refl _) (by omega) hfuel]
  simp

/-! ## Call sequences refine the reference model -/

theorem hasRoom_room {s : State} (h : Inv s) (hr : HasRoom s) :
    s.list.size < (ensureCapacity s).list.capacity := by
  have h1 := h.size_le
  have h2 := h.size_nonneg
  unfold ensureCapacity
  split
  · rcases hr with c | ⟨c1, c2⟩
    · omega
    · show s.list.size < wrap32 (s.list.capacity * 2)
      rw [wrap32_of_range _ (by omega) (by omega)]
      omega
  · omega

theorem contents_printf (s : State) (t : String) : contents (printf s t) = contents s := rfl

theorem insert_cap_pos {s s1 : State} {index value : Int} {addr : Nat} (h : Inv s)
    (hc : 0 < s.list.capacity) (e : insert s index value addr = some s1) :
    0 < s1.list.capacity := by
  by_cases hr : index < 0 ∨ index > s.list.size
  · simp only [insert, hr, if_true] at e
    rw [← Option.some.inj e]
    exact hc
  · have h0 : 0 ≤ index := by omega
    have h1 : index ≤ s.list.size := by omega
    obtain ⟨hf, hroom⟩ := insert_some_room h0 h1 e
    obtain ⟨s2, e2, hp⟩ := insert_post h index value addr h0 h1 hf hroom
    rw [e] at e2
    rw [Option.some.inj e2, hp.cap_eq]
    have := h.size_nonneg
    omega

theorem removeAt_cap {s s1 : State} {index : Int} (h : Inv s)
    (e : removeAt s index = some s1) : s1.list.capacity = s.list.capacity := by
  by_cases hr : index < 0 ∨ index ≥ s.list.size
  · simp only [removeAt, hr, if_true] at e
    rw [← Option.some.inj e]
    rfl
  · obtain ⟨s2, e2, hp⟩ := removeAt_post h index (by omega) (by omega)
    rw [e] at e2
    rw [Option.some.inj e2, hp.cap_eq]

/-- Every reachable state has a non-empty index array. -/
theorem Reachable.cap_pos {s : State} (hr : Reachable s) : 0 < s.list.capacity := by
  induction hr with
  | create junk => simp [createList]
  | insert index value addr hs e ih => exact insert_cap_pos hs.inv ih e
  | removeAt index hs e ih => rw [removeAt_cap hs.inv e]; exact ih

/-- One feasible call on a state satisfying the invariants returns, keeps the
invariants and acts on the logical sequence as the reference model does. -/
theorem step_refines {s : State} (h : Inv s) (hc : 0 < s.list.capacity) (op : Op)
    (hok : callOk s op = true) :
    ∃ s1, step s op = some s1 ∧ Inv s1 ∧ 0 < s1.list.capacity ∧
      contents s1 = refStep (contents s) op ∧
      s1.list.size = s.list.size
        + (match op with
            | .insert index _ _ => if 0 ≤ index ∧ index ≤ s.list.size then 1 else 0
            | .removeAt _ => 0)
        - (match op with
            | .insert _ _ _ => 0
            | .removeAt index => if 0 ≤ index ∧ index < s.list.size then 1 else 0) := by
  have hsz := h.size_nonneg
  cases op with
  | insert index value addr =>
    by_cases hr : index < 0 ∨ index > s.list.size
    · have k : ¬ (0 ≤ index ∧ index ≤ s.list.size) := by omega
      have k2 : ¬ (0 ≤ index ∧ index ≤ ((contents s).length : Int)) := by
        rw [contents_length]; omega
      refine ⟨printf s "Invalid index\n", by simp [step, insert, hr], printf_inv h _, hc, ?_, ?_⟩
      · simp only [refStep, k2, if_false]; rfl
      · simp only [k, if_false]; show s.list.size = _; omega
    · have h0 : 0 ≤ index := by omega
      have h1 : index ≤ s.list.size := by omega
      have k : 0 ≤ index ∧ index ≤ s.list.size := ⟨h0, h1⟩
      have k2 : 0 ≤ index ∧ index ≤ ((contents s).length : Int) := by
        rw [contents_length]; omega
      have hok2 : s.heap addr = none ∧ s.list.size < 1073741824 := by
        simpa [callOk, k] using hok
      obtain ⟨hf, hlt⟩ := hok2
      have hroom : HasRoom s := by
        have := h.size_le
        unfold HasRoom
        omega
      have hcr := hasRoom_room h hroom
      obtain ⟨s1, e, hp⟩ := insert_post h index value addr h0 h1 hf hcr
      have hi := hp.inv_after_insert h h0 h1 hf hcr
      refine ⟨s1, e, hi, ?_, ?_, ?_⟩
      · rw [hp.cap_eq]; omega
      · simp only [refStep, k2, and_self, if_true]
        exact hp.contents_insert h h0 h1 hf
      · simp only [k, and_self, if_true]; rw [hp.size_eq]; omega
  | removeAt index =>
    by_cases hr : index < 0 ∨ index ≥ s.list.size
    · have k : ¬ (0 ≤ index ∧ index < s.list.size) := by omega
      have k2 : ¬ (0 ≤ index ∧ index < ((contents s).length : Int)) := by
        rw [contents_length]; omega
      refine ⟨printf s "Invalid index\n", by simp [step, removeAt, hr], printf_inv h _, hc, ?_, ?_⟩
      · simp only [refStep, k2, if_false]; rfl
      · simp only [k, if_false]; show s.list.size = _; omega
    · have h0 : 0 ≤ index := by omega
      have h1 : index < s.list.size := by omega
      have k : 0 ≤ index ∧ index < s.list.size := ⟨h0, h1⟩
      have k2 : 0 ≤ index ∧ index < ((contents s).length : Int) := by
        rw [contents_length]; omega
      obtain ⟨s1, e, hp⟩ := removeAt_post h index h0 h1
      refine ⟨s1, e, hp.inv_after_remove h h0 h1, ?_, ?_, ?_⟩
      · rw [hp.cap_eq]; exact hc
      · simp only [refStep, k2, and_self, if_true]
        exact hp.contents_remove h h0 h1
      · simp only [k, and_self, if_true]; rw [hp.size_eq]; omega

/-- A feasible call sequence run from a state satisfying the invariants returns,
and its final logical sequence and size are those of the reference model. -/
theorem run_refines : ∀ (ops : List Op) (s : State), Inv s → 0 < s.list.capacity →
    feasible ops s = true →
    ∃ s1, run ops s = some s1 ∧ Inv s1 ∧ contents s1 = replay (contents s) ops ∧
      s1.list.size = s.list.size + (insertsOk ops s : Int) - (removesOk ops s : Int) := by
  intro ops
  induction ops with
  | nil =>
    intro s h _ _
    exact ⟨s, rfl, h, rfl, by simp [insertsOk, removesOk]⟩
  | cons op ops ih =>
    intro s h hc hf
    simp only [feasible, Bool.and_eq_true] at hf
    obtain ⟨hok, hrest⟩ := hf
    obtain ⟨s1, e1, hi1, hc1, hcont, hsize⟩ := step_refines h hc op hok
    rw [e1] at hrest
    obtain ⟨s2, e2, hi2, hcont2, hsize2⟩ := ih s1 hi1 hc1 hrest
    refine ⟨s2, by simp [run, e1, e2], hi2, ?_, ?_⟩
    · rw [hcont2, hcont]; rfl
    · rw [hsize2, hsize]
      simp only [insertsOk, removesOk, e1]
      cases op <;> (push_cast; split_ifs <;> omega)

/-- A call that returns allocates at most the address it was handed. -/
theorem step_heap_none {s s1 : State} (h : Inv s) (op : Op) (e : step s op = some s1)
    (b : Nat) (hb : s.heap b = none) (hne : ∀ index value, op ≠ .insert index value b) :
    s1.heap b = none := by
  cases op with
  | insert index value addr =>
    have hba : b ≠ addr := fun c => hne index value (by rw [c])
    simp only [step] at e
    by_cases hr : index < 0 ∨ index > s.list.size
    · simp only [insert, hr, if_true, Option.some.injEq] at e
      rw [← e]
      exact hb
    · have h0 : 0 ≤ index := by omega
      have h1 : index ≤ s.list.size := by omega
      obtain ⟨hf, hc⟩ := insert_some_room h0 h1 e
      obtain ⟨s2, e2, hp⟩ := insert_post h index value addr h0 h1 hf hc
      rw [e] at e2
      rw [Option.some.inj e2, hp.heap_old b hba, hb]
      split_ifs <;> rfl
  | removeAt index =>
    simp only [step] at e
    by_cases hr : index < 0 ∨ index ≥ s.list.size
    · simp only [removeAt, hr, if_true, Option.some.injEq] at e
      rw [← e]
      exact hb
    · have h0 : 0 ≤ index := by omega
      have h1 : index < s.list.size := by omega
      obtain ⟨s2, e2, hp⟩ := removeAt_post h index h0 h1
      rw [e] at e2
      have hnb : s.list.nodes index ≠ some b := h.fresh_ne hb index h0 h1
      rw [Option.some.inj e2, hp.heap_old b hnb, hb]
      split_ifs <;> rfl

/-- A call sequence is feasible when `malloc` hands out pairwise different
addresses that are unallocated at the start and the list cannot grow to 2^30
elements during the run. -/
theorem feasible_of_nodup : ∀ (ops : List Op) (s : State), Inv s → 0 < s.list.capacity →
    (∀ a ∈ insertAddrs ops, s.heap a = none) → (insertAddrs ops).Nodup →
    s.list.size + ops.length ≤ 1073741824 → feasible ops s = true := by
  intro ops
  induction ops with
  | nil => intro s _ _ _ _ _; rfl
  | cons op ops ih =>
    intro s h hc hfresh hnd hlen
    have hok : callOk s op = true := by
      cases op with
      | insert index value addr =>
        have hf : s.heap addr = none := hfresh addr (by simp [insertAddrs])
        have hlt : s.list.size < 1073741824 := by
          simp only [List.length_cons] at hlen
          push_cast at hlen
          omega
        simp [callOk, hf, hlt]
      | removeAt index => rfl
    obtain ⟨s1, e1, hi1, hc1, -, hsize⟩ := step_refines h hc op hok
    simp only [feasible, hok, e1, Bool.true_and]
    apply ih s1 hi1 hc1
    · intro a ha
      apply step_heap_none h op e1 a
      · apply hfresh
        cases op <;> simp [insertAddrs, ha]
      · intro index value c
        subst c
        simp only [insertAddrs, List.nodup_cons] at hnd
        exact hnd.1 ha
    · cases op with
      | insert index value addr =>
        simp only [insertAddrs, List.nodup_cons] at hnd
        exact hnd.2
      | removeAt index => exact hnd
    · rw [hsize]
      simp only [List.length_cons] at hlen
      push_cast at hlen
      cases op <;> (simp only; split_ifs <;> omega)

/-! ## Printing -/

theorem printLoop_eq : ∀ (fuel : Nat) (s : State) (p : Ptr) (vs : List Int),
    traverse s.heap fuel p = some vs →
    printLoop fuel s p = some { s with out := s.out ++ vs.map fun v => toString v ++ " -> " } := by
  intro fuel
  induction fuel with
  | zero =>
    intro s p vs e
    cases p with
    | none =>
      simp only [traverse, Option.some.injEq] at e
      subst e
      simp [printLoop]
    | some a => simp [traverse] at e
  | succ n ih =>
    intro s p vs e
    cases p with
    | none =>
      simp only [traverse, Option.some.injEq] at e
      subst e
      simp [printLoop]
    | some a =>
      simp only [traverse] at e
      cases hc : s.heap a with
      | none => rw [hc] at e; simp at e
      | some c =>
        rw [hc] at e
        simp only [Option.map_eq_some'] at e
        obtain ⟨ws, e1, e2⟩ := e
        subst e2
        simp only [printLoop, hc]
        rw [ih (printf s (toString c.value ++ " -> ")) c.next ws e1]
        simp [printf]

/-! ## Filling the index array -/

theorem run_append (xs ys : List Op) (s : State) :
    run (xs ++ ys) s = (run xs s).bind (run ys) := by
  induction xs generalizing s with
  | nil => simp [run]
  | cons x xs ih =>
    simp only [List.cons_append, run]
    cases step s x with
    | none => rfl
    | some s1 => simp [ih]

theorem Filled.step {k : Nat} {s : State} (h : Filled k s) (hk : k < 1073741824) :
    ∃ s1, insert s (Int.ofNat k) 0 k = some s1 ∧ Filled (k + 1) s1 := by
  obtain ⟨e, he1, he2, hcap⟩ := h.cap_pow
  have hsz := h.inv.size_le
  have hroom : HasRoom s := by
    unfold HasRoom
    rw [h.size_eq, hcap] at *
    by_cases c : (k : Int) < 2 ^ e
    · exact Or.inl c
    · exact Or.inr ⟨by positivity, by omega⟩
  have hcr := hasRoom_room h.inv hroom
  have h0 : (0 : Int) ≤ Int.ofNat k := by simp
  have h1 : Int.ofNat k ≤ s.list.size := by rw [h.size_eq]; simp
  have hf := h.fresh k (le_refl _)
  obtain ⟨s1, e1, hp⟩ := insert_post h.inv (Int.ofNat k) 0 k h0 h1 hf hcr
  refine ⟨s1, e1, hp.inv_after_insert h.inv h0 h1 hf hcr, ?_, ?_, ?_⟩
  · rw [hp.size_eq, h.size_eq]; push_cast; rfl
  · rw [hp.cap_eq]
    unfold ensureCapacity
    split
    · rename_i hge
      rw [h.size_eq, hcap] at hge
      have hlt : (2 : Int) ^ e < 1073741824 := by omega
      have he3 : e < 30 := by
        by_contra hcon
        have : e = 30 := by omega
        subst this
        norm_num at hlt
      refine ⟨e + 1, by omega, by omega, ?_⟩
      show wrap32 (s.list.capacity * 2) = 2 ^ (e + 1)
      have hpos : (0 : Int) < 2 ^ e := by positivity
      rw [hcap, wrap32_of_range _ (by omega) (by omega), pow_succ]
    · exact ⟨e, he1, he2, hcap⟩
  · intro a ha
    have hne : a ≠ k := by omega
    rw [hp.heap_old a hne, h.fresh a (by omega)]
    split_ifs <;> rfl

theorem Filled.run : ∀ (n k : Nat) (s : State), Filled k s → k + n ≤ 1073741824 →
    ∃ s1, run (List.map fillOp (List.range' k n)) s = some s1 ∧ Filled (k + n) s1 := by
  intro n
  induction n with
  | zero =>
    intro k s h _
    exact ⟨s, rfl, h⟩
  | succ m ih =>
    intro k s h hk
    obtain ⟨s1, e1, h1⟩ := h.step (by omega)
    obtain ⟨s2, e2, h2⟩ := ih (k + 1) s1 h1 (by omega)
    refine ⟨s2, ?_, ?_⟩
    · simp only [List.range'_succ, List.map_cons, DSA.run, DSA.step, fillOp]
      rw [e1]
      exact e2
    · have : k + (m + 1) = k + 1 + m := by omega
      rw [this]
      exact h2

/-- With 2^30 elements in a full index array every in-range `insert` breaks:
doubling the capacity leaves the `int` range. -/
theorem Filled.insert_none {s : State} (h : Filled 1073741824 s) (index value : Int)
    (addr : Nat) (h0 : 0 ≤ index) (h1 : index ≤ s.list.size) :
    insert s index value addr = none := by
  have hsize := h.size_eq
  have hc : s.list.capacity = 1073741824 := by
    obtain ⟨e, -, he2, hcap⟩ := h.cap_pow
    have hsz := h.inv.size_le
    rw [hcap, hsize] at hsz
    rw [hcap]
    have hle : (2 : Int) ^ e ≤ 2 ^ 30 := pow_le_pow_right₀ (by norm_num) he2
    norm_num at hle hsz
    omega
  cases hres : insert s index value addr with
  | none => rfl
  | some s1 =>
    exfalso
    obtain ⟨-, hroom⟩ := insert_some_room h0 h1 hres
    have : (ensureCapacity s).list.capacity = -2147483648 := by
      unfold ensureCapacity
      rw [if_pos (by rw [hsize, hc]; norm_num)]
      show wrap32 (s.list.capacity * 2) = _
      rw [hc]
      decide
    rw [this, hsize] at hroom
    norm_num at hroom

theorem createList_filled (junk : Int → Ptr) : Filled 0 (createList junk) :=
  ⟨createList_inv junk, rfl, ⟨10, le_refl _, by omega, by simp [createList]⟩, fun _ _ => rfl⟩

/-- The filling sequence returns, for every initial content of the index array,
with 2^30 elements in a full index array. -/
theorem run_fill (junk : Int → Ptr) :
    ∃ s, run fill (createList junk) = some s ∧ Filled 1073741824 s := by
  obtain ⟨s1, e1, h1⟩ := Filled.run 1073741824 0 (createList junk) (createList_filled junk)
    (by norm_num)
  refine ⟨s1, ?_, h1⟩
  unfold fill
  rw [List.range_eq_range']
  exact e1

theorem Filled.cap_eq {s : State} (h : Filled 1073741824 s) :
    s.list.capacity = 1073741824 := by
  obtain ⟨e, -, he2, hcap⟩ := h.cap_pow
  have hsz := h.inv.size_le
  rw [hcap, h.size_eq] at hsz
  rw [hcap]
  have hle : (2 : Int) ^ e ≤ 2 ^ 30 := pow_le_pow_right₀ (by norm_num) he2
  norm_num at hle hsz
  omega

/-- One more append after the filling sequence breaks. -/
theorem run_overfill (junk : Int → Ptr) : run overfill (createList junk) = none := by
  obtain ⟨s1, e1, h1⟩ := run_fill junk
  unfold overfill
  rw [run_append, e1]
  simp only [Option.some_bind, DSA.run, DSA.step, fillOp]
  rw [h1.insert_none _ _ _ (by simp) (by rw [h1.size_eq]; simp)]
  rfl

/-! ## Concrete states -/

theorem run_reachable : ∀ (ops : List Op) (s s1 : State), Reachable s → run ops s = some s1 →
    Reachable s1 := by
  intro ops
  induction ops with
  | nil =>
    intro s s1 hr e
    simp only [run, Option.some.injEq] at e
    exact e ▸ hr
  | cons op ops ih =>
    intro s s1 hr e
    simp only [run] at e
    obtain ⟨s2, e2, e3⟩ := Option.bind_eq_some.mp e
    cases op with
    | insert index value addr => exact ih s2 s1 (Reachable.insert index value addr hr e2) e3
    | removeAt index => exact ih s2 s1 (Reachable.removeAt index hr e2) e3

theorem getD_of_isSome {α : Type} (o : Option α) (d : α) (h : o.isSome = true) :
    o = some (o.getD d) := by
  cases o with
  | none => simp at h
  | some x => rfl

theorem demoList_reachable : Reachable demoList :=
  run_reachable (demoOps.take 3) _ _ (Reachable.create fun _ => none)
    (getD_of_isSome _ _ (by decide))

theorem sentinelList_reachable : Reachable sentinelList :=
  run_reachable [.insert 0 (-1) 1] _ _ (Reachable.create fun _ => none)
    (getD_of_isSome _ _ (by decide))

theorem fullList_inv : Inv fullList := by
  constructor
  · simp [fullList]
  · simp [fullList]
  · simp [fullList, INT_MAX]
  · simp [fullList]
  · simp [fullList]
  · intro i h0 h1
    simp only [fullList] at h1
    have k : i.toNat < 1073741824 := by omega
    refine ⟨i.toNat,
      { value := 0, next := if i.toNat + 1 < 1073741824 then some (i.toNat + 1) else none },
      rfl, by simp only [fullList, k, if_true], ?_⟩
    simp only [fullList]
    by_cases c : i + 1 < 1073741824
    · have c2 : i.toNat + 1 < 1073741824 := by omega
      rw [if_pos c, if_pos c2]
      congr 1
      omega
    · have c2 : ¬ i.toNat + 1 < 1073741824 := by omega
      rw [if_neg c, if_neg c2]

/-! ## Output is only written by the out-of-range branches -/

theorem setNext_out {s s1 : State} {p q : Ptr} (e : setNext s p q = some s1) : s1.out = s.out := by
  unfold setNext at e
  split at e
  · exact Option.noConfusion e
  · split at e
    · exact Option.noConfusion e
    · rw [← Option.some.inj e]

theorem linkNew_out {s s1 : State} {index : Int} {a : Nat} (e : linkNew s index a = some s1) :
    s1.out = s.out := by
  unfold linkNew at e
  split at e
  · obtain ⟨s2, e2, e3⟩ := Option.bind_eq_some.mp e
    have hl := setNext_out e2
    simp only at e3
    split at e3 <;> (rw [← Option.some.inj e3]; simp [hl])
  · split at e
    · obtain ⟨s2, e2, e3⟩ := Option.bind_eq_some.mp e
      have hl := setNext_out e2
      rw [← Option.some.inj e3]; simp [hl]
    · obtain ⟨prev, -, e3⟩ := Option.bind_eq_some.mp e
      obtain ⟨c, -, e4⟩ := Option.bind_eq_some.mp e3
      obtain ⟨s2, e5, e6⟩ := Option.bind_eq_some.mp e4
      rw [setNext_out e6, setNext_out e5]

theorem insert_out {s s1 : State} {index value : Int} {addr : Nat}
    (hr : ¬ (index < 0 ∨ index > s.list.size)) (e : insert s index value addr = some s1) :
    s1.out = s.out := by
  simp only [insert, hr, if_false] at e
  obtain ⟨r, e1, e2⟩ := Option.bind_eq_some.mp e
  have hr1 : r.1.out = s.out := by
    unfold createNode at e1
    split at e1
    · exact Option.noConfusion e1
    · rw [← Option.some.inj e1]; simp
  obtain ⟨sL, e3, e4⟩ := Option.bind_eq_some.mp e2
  obtain ⟨l1, -, e6⟩ := Option.bind_eq_some.mp e4
  obtain ⟨l2, -, e8⟩ := Option.bind_eq_some.mp e6
  rw [← Option.some.inj e8]
  show sL.out = s.out
  rw [linkNew_out e3, hr1]

theorem removeAt_out {s s1 : State} {index : Int}
    (hr : ¬ (index < 0 ∨ index ≥ s.list.size)) (e : removeAt s index = some s1) :
    s1.out = s.out := by
  simp only [removeAt, hr, if_false] at e
  obtain ⟨del, -, e2⟩ := Option.bind_eq_some.mp e
  obtain ⟨sU, e3, e4⟩ := Option.bind_eq_some.mp e2
  obtain ⟨sT, e5, e6⟩ := Option.bind_eq_some.mp e4
  obtain ⟨l1, -, e8⟩ := Option.bind_eq_some.mp e6
  obtain ⟨sF, e9, e10⟩ := Option.bind_eq_some.mp e8
  have hU : sU.out = s.out := by
    unfold unlink at e3
    split at e3
    · obtain ⟨c, -, e11⟩ := Option.bind_eq_some.mp e3
      rw [← Option.some.inj e11]
    · obtain ⟨prev, -, e11⟩ := Option.bind_eq_some.mp e3
      obtain ⟨c, -, e12⟩ := Option.bind_eq_some.mp e11
      exact setNext_out e12
  have hT : sT.out = sU.out := by
    unfold fixTail at e5
    split at e5
    · split at e5
      · obtain ⟨q, -, e11⟩ := Option.bind_eq_some.mp e5
        rw [← Option.some.inj e11]
      · rw [← Option.some.inj e5]
    · rw [← Option.some.inj e5]
  have hF : sF.out = sT.out := by
    unfold free at e9
    split at e9
    · rw [← Option.some.inj e9]
    · split at e9
      · exact Option.noConfusion e9
      · rw [← Option.some.inj e9]
  rw [← Option.some.inj e10]
  show sF.out = s.out
  rw [hF, hT, hU]

theorem printf_out_ne (s : State) (t : String) : (printf s t).out ≠ s.out := by
  intro e
  have := congrArg List.length e
  simp [printf] at this

theorem fullList_filled : Filled 1073741824 fullList :=
  ⟨fullList_inv, rfl, ⟨30, by omega, le_refl _, by simp [fullList]⟩, fun a ha => by
    have k : ¬ a < 1073741824 := by omega
    simp only [fullList, k, if_false]⟩

theorem contents_createList (junk : Int → Ptr) : contents (createList junk) = [] := rfl

theorem Inv.get_after_insert {s s1 : State} {index value : Int} {addr : Nat} (h : Inv s)
    (hp : InsertPost s index value addr s1) (h0 : 0 ≤ index) (h1 : index ≤ s.list.size)
    (hf : s.heap addr = none) (hc : s.list.size < (ensureCapacity s).list.capacity)
    (j : Int) (hj : 0 ≤ j) (hj2 : j ≤ s.list.size) :
    get s1 j = some
      (if j < index then valueAt s j else if j = index then value else valueAt s (j - 1), s1) := by
  rw [(hp.inv_after_insert h h0 h1 hf hc).get_eq j hj (by rw [hp.size_eq]; omega),
    hp.valueAt_insert h h0 h1 hf j hj hj2]

theorem Inv.walk_some {s : State} (h : Inv s) (fuel : Nat) (hfuel : s.list.size.toNat ≤ fuel) :
    ∃ addrs, walk s.heap fuel s.list.head = some addrs ∧
      addrs.length = s.list.size.toNat ∧
      ∀ k : Nat, k < s.list.size.toNat → s.list.nodes (Int.ofNat k) = addrs[k]? := by
  have hw := h.walk_eq fuel hfuel
  cases hwk : walk s.heap fuel s.list.head with
  | none => rw [hwk] at hw; simp at hw
  | some addrs =>
    rw [hwk] at hw
    simp only [Option.map_some', Option.some.injEq] at hw
    have hlen : addrs.length = s.list.size.toNat := by
      have := congrArg List.length hw
      simpa using this
    refine ⟨addrs, rfl, hlen, ?_⟩
    intro k hk
    have := congrArg (fun l => l[k]?) hw
    simp only [List.getElem?_map] at this
    rw [List.getElem?_range hk] at this
    simp only [Option.map_some'] at this
    cases hak : addrs[k]? with
    | none => rw [hak] at this; simp at this
    | some a =>
      rw [hak] at this
      simp only [Option.map_some', Option.some.injEq] at this
      exact this.symm

/-! ## The claims -/

/-- C1 (amended): for every call sequence applied to a list returned by
`createList` in which every in-range `insert` is handed an unallocated address
and finds fewer than 2^30 elements, the run returns, and the values met by
walking the next-links from `head`, which are the values `printList` prints,
are the reference list obtained by replaying the calls on a plain list. -/
theorem traversal_refines_reference (junk : Int → Ptr) (ops : List Op)
    (hf : feasible ops (createList junk) = true) :
    ∃ s, run ops (createList junk) = some s ∧
      traverse s.heap s.list.size.toNat s.list.head = some (replay [] ops) ∧
      printList s.list.size.toNat s =
        some { s with out :=
          s.out ++ (replay [] ops).map (fun v => toString v ++ " -> ") ++ ["NULL\n"] } := by
  obtain ⟨s, e, hi, hc, -⟩ := run_refines ops (createList junk) (createList_inv junk)
    (by simp [createList]) hf
  rw [contents_createList] at hc
  have ht := hi.traverse_eq s.list.size.toNat (le_refl _)
  rw [hc] at ht
  refine ⟨s, e, ht, ?_⟩
  unfold printList
  rw [printLoop_eq _ _ _ _ ht]
  rfl

/-- An instance: the calls of `demoOps`, two of them out of range, on a fresh list. -/
theorem traversal_refines_reference_witness :
    feasible demoOps (createList fun _ => none) = true ∧
    ∃ s, run demoOps (createList fun _ => none) = some s ∧
      traverse s.heap s.list.size.toNat s.list.head = some (replay [] demoOps) ∧
      printList s.list.size.toNat s =
        some { s with out :=
          s.out ++ (replay [] demoOps).map (fun v => toString v ++ " -> ") ++ ["NULL\n"] } :=
  ⟨by decide, traversal_refines_reference (fun _ => none) demoOps (by decide)⟩

/-- C1 (counterexample): the first 2^30 appends to a fresh list return and leave
2^30 elements in an index array of capacity 2^30; the next append, handed the
unallocated address 2^30, breaks, so the run of `overfill` yields no traversal
that could equal the reference list. -/
theorem overfill_traversal_counterexample :
    (∃ s, run fill (createList fun _ => none) = some s ∧ s.list.size = 1073741824 ∧
      s.list.capacity = 1073741824 ∧ s.heap 1073741824 = none ∧
      insert s 1073741824 0 1073741824 = none) ∧
    ¬ ∃ s, run overfill (createList fun _ => none) = some s ∧
      traverse s.heap s.list.size.toNat s.list.head = some (replay [] overfill) := by
  constructor
  · obtain ⟨s, e, h⟩ := run_fill fun _ => none
    exact ⟨s, e, h.size_eq, h.cap_eq, h.fresh _ (le_refl _),
      h.insert_none _ _ _ (by decide) (by rw [h.size_eq]; decide)⟩
  · rintro ⟨s, e, -⟩
    rw [run_overfill] at e
    exact Option.noConfusion e

/-- C2 (amended): for every state satisfying the data-model invariants whose
index array has room (`size < capacity`, or `0 < capacity < 2^30` so that the
doubling stays an `int`), every position `0 ≤ p ≤ size`, every value `v` and
every unallocated address handed out by `malloc`, `insert(list, p, v)`
returns, the invariants hold afterwards and `get(list, p)` returns `v`. -/
theorem insert_then_get (s : State) (p v : Int) (addr : Nat) (h : Inv s) (h0 : 0 ≤ p)
    (h1 : p ≤ s.list.size) (hroom : HasRoom s) (hf : s.heap addr = none) :
    ∃ s1, insert s p v addr = some s1 ∧ Inv s1 ∧ get s1 p = some (v, s1) := by
  have hc := hasRoom_room h hroom
  obtain ⟨s1, e, hp⟩ := insert_post h p v addr h0 h1 hf hc
  refine ⟨s1, e, hp.inv_after_insert h h0 h1 hf hc, ?_⟩
  rw [h.get_after_insert hp h0 h1 hf hc p h0 h1, if_neg (lt_irrefl _), if_pos rfl]

/-- An instance: inserting 99 at position 1 of the list 10, 15, 20. -/
theorem insert_then_get_witness :
    Inv demoList ∧ (0 : Int) ≤ 1 ∧ 1 ≤ demoList.list.size ∧ HasRoom demoList ∧
    demoList.heap 7 = none ∧
    ∃ s1, insert demoList 1 99 7 = some s1 ∧ Inv s1 ∧ get s1 1 = some (99, s1) :=
  ⟨demoList_reachable.inv, by decide, by decide, Or.inl (by decide), by decide,
    insert_then_get demoList 1 99 7 demoList_reachable.inv (by decide) (by decide)
      (Or.inl (by decide)) (by decide)⟩

/-- C2 (counterexample): a list of 2^30 elements with a full index array
satisfies the invariants, yet appending to it breaks (the doubled capacity
leaves the `int` range), so no `get` follows. -/
theorem full_list_append_counterexample :
    Inv fullList ∧ (0 : Int) ≤ 1073741824 ∧ (1073741824 : Int) ≤ fullList.list.size ∧
    fullList.heap 1073741824 = none ∧
    ¬ ∃ s1, insert fullList 1073741824 7 1073741824 = some s1 ∧
        get s1 1073741824 = some (7, s1) := by
  refine ⟨fullList_inv, by decide, by decide, by decide, ?_⟩
  rintro ⟨s1, e, -⟩
  rw [fullList_filled.insert_none _ _ _ (by decide) (by decide)] at e
  exact Option.noConfusion e

/-- C3 (amended): for every state satisfying the invariants whose index array
has room (`size < capacity`, or `0 < capacity < 2^30`), every position
`0 ≤ p ≤ size` and every unallocated address handed out by `malloc`,
`insert(list, p, v)` returns and the other elements keep their values and
order: `get(i)` is unchanged for `i < p`, and the new `get(i + 1)` is the old
`get(i)` for `p ≤ i < size`. -/
theorem insert_preserves_others (s : State) (p v : Int) (addr : Nat) (h : Inv s) (h0 : 0 ≤ p)
    (h1 : p ≤ s.list.size) (hroom : HasRoom s) (hf : s.heap addr = none) :
    ∃ s1, insert s p v addr = some s1 ∧
      (∀ i, 0 ≤ i → i < p → ∃ x, get s i = some (x, s) ∧ get s1 i = some (x, s1)) ∧
      (∀ i, p ≤ i → i < s.list.size →
        ∃ x, get s i = some (x, s) ∧ get s1 (i + 1) = some (x, s1)) := by
  have hc := hasRoom_room h hroom
  obtain ⟨s1, e, hp⟩ := insert_post h p v addr h0 h1 hf hc
  refine ⟨s1, e, ?_, ?_⟩
  · intro i hi hi2
    refine ⟨valueAt s i, h.get_eq i hi (by omega), ?_⟩
    rw [h.get_after_insert hp h0 h1 hf hc i hi (by omega), if_pos hi2]
  · intro i hi hi2
    have k1 : ¬ i + 1 < p := by omega
    have k2 : ¬ i + 1 = p := by omega
    refine ⟨valueAt s i, h.get_eq i (by omega) hi2, ?_⟩
    rw [h.get_after_insert hp h0 h1 hf hc (i + 1) (by omega) (by omega), if_neg k1, if_neg k2]
    simp

/-- An instance: the neighbours of position 1 in the list 10, 15, 20. -/
theorem insert_preserves_others_witness :
    Inv demoList ∧ (0 : Int) ≤ 1 ∧ 1 ≤ demoList.list.size ∧ HasRoom demoList ∧
    demoList.heap 7 = none ∧
    ∃ s1, insert demoList 1 99 7 = some s1 ∧
      (∀ i, 0 ≤ i → i < 1 → ∃ x, get demoList i = some (x, demoList) ∧ get s1 i = some (x, s1)) ∧
      (∀ i, 1 ≤ i → i < demoList.list.size →
        ∃ x, get demoList i = some (x, demoList) ∧ get s1 (i + 1) = some (x, s1)) :=
  ⟨demoList_reachable.inv, by decide, by decide, Or.inl (by decide), by decide,
    insert_preserves_others demoList 1 99 7 demoList_reachable.inv (by decide) (by decide)
      (Or.inl (by decide)) (by decide)⟩

/-- C3 (counterexample): on the list of 2^30 elements with a full index array,
which satisfies the invariants, inserting at position 0 breaks in the shifting
loop, so there is no state in which the old elements could be read. -/
theorem full_list_prepend_counterexample :
    Inv fullList ∧ (0 : Int) ≤ 0 ∧ (0 : Int) ≤ fullList.list.size ∧
    fullList.heap 1073741824 = none ∧ insert fullList 0 7 1073741824 = none :=
  ⟨fullList_inv, by decide, by decide, by decide,
    fullList_filled.insert_none _ _ _ (by decide) (by decide)⟩

/-- C4: for every state satisfying the invariants and every position
`0 ≤ p < size`, `removeAt(list, p)` returns and the logical sequence is the
old one with the element at `p` erased: `get(i)` is unchanged for `i < p`, and
the new `get(i)` is the old `get(i + 1)` for `p ≤ i < size - 1`. -/
theorem removeAt_erases (s : State) (p : Int) (h : Inv s) (h0 : 0 ≤ p) (h1 : p < s.list.size) :
    ∃ s1, removeAt s p = some s1 ∧ s1.list.size = s.list.size - 1 ∧
      contents s1 = (contents s).eraseIdx p.toNat ∧
      (∀ i, 0 ≤ i → i < p → ∃ x, get s i = some (x, s) ∧ get s1 i = some (x, s1)) ∧
      (∀ i, p ≤ i → i < s.list.size - 1 →
        ∃ x, get s (i + 1) = some (x, s) ∧ get s1 i = some (x, s1)) := by
  obtain ⟨s1, e, hp⟩ := removeAt_post h p h0 h1
  have hi1 := hp.inv_after_remove h h0 h1
  refine ⟨s1, e, hp.size_eq, hp.contents_remove h h0 h1, ?_, ?_⟩
  · intro i hi hi2
    refine ⟨valueAt s i, h.get_eq i hi (by omega), ?_⟩
    rw [hi1.get_eq i hi (by rw [hp.size_eq]; omega),
      hp.valueAt_remove h h0 h1 i hi (by omega), if_pos hi2]
  · intro i hi hi2
    have k1 : ¬ i < p := by omega
    refine ⟨valueAt s (i + 1), h.get_eq (i + 1) (by omega) (by omega), ?_⟩
    rw [hi1.get_eq i (by omega) (by rw [hp.size_eq]; omega),
      hp.valueAt_remove h h0 h1 i (by omega) hi2, if_neg k1]

/-- An instance: removing position 1 of the list 10, 15, 20. -/
theorem removeAt_erases_witness :
    Inv demoList ∧ (0 : Int) ≤ 1 ∧ 1 < demoList.list.size ∧
    ∃ s1, removeAt demoList 1 = some s1 ∧ s1.list.size = demoList.list.size - 1 ∧
      contents s1 = (contents demoList).eraseIdx (1 : Int).toNat ∧
      (∀ i, 0 ≤ i → i < 1 → ∃ x, get demoList i = some (x, demoList) ∧ get s1 i = some (x, s1)) ∧
      (∀ i, 1 ≤ i → i < demoList.list.size - 1 →
        ∃ x, get demoList (i + 1) = some (x, demoList) ∧ get s1 i = some (x, s1)) :=
  ⟨demoList_reachable.inv, by decide, by decide,
    removeAt_erases demoList 1 demoList_reachable.inv (by decide) (by decide)⟩

/-- C5: in every state reachable from `createList` by `insert` and `removeAt`
calls, walking the next-links from `head` ends after exactly `size` elements,
the `i`-th element met is the one `nodes[i]` refers to, and `get(list, i)`
returns the `i`-th value of the traversal. -/
theorem lockstep_reachable (s : State) (hr : Reachable s) :
    ∃ addrs vals, 0 ≤ s.list.size ∧ addrs.length = s.list.size.toNat ∧
      vals.length = s.list.size.toNat ∧
      (∀ fuel, s.list.size.toNat ≤ fuel →
        walk s.heap fuel s.list.head = some addrs ∧
        traverse s.heap fuel s.list.head = some vals) ∧
      ∀ i, 0 ≤ i → i < s.list.size →
        ∃ a x, addrs[i.toNat]? = some a ∧ s.list.nodes i = some a ∧
          vals[i.toNat]? = some x ∧ get s i = some (x, s) := by
  have h := hr.inv
  obtain ⟨addrs, hw, hlen, hnodes⟩ := h.walk_some s.list.size.toNat (le_refl _)
  refine ⟨addrs, contents s, h.size_nonneg, hlen, contents_length s, ?_, ?_⟩
  · intro fuel hfuel
    refine ⟨?_, h.traverse_eq fuel hfuel⟩
    obtain ⟨addrs2, hw2, hlen2, hnodes2⟩ := h.walk_some fuel hfuel
    rw [hw2]
    congr 1
    apply List.ext_getElem? 
    intro k
    by_cases hk : k < s.list.size.toNat
    · rw [← hnodes k hk, ← hnodes2 k hk]
    · rw [List.getElem?_eq_none (by omega), List.getElem?_eq_none (by omega)]
  · intro i h0 h1
    obtain ⟨a, c, e1, -, -⟩ := h.cell i h0 h1
    have hk : i.toNat < s.list.size.toNat := by omega
    have hi : Int.ofNat i.toNat = i := by simp [h0]
    have hn := hnodes i.toNat hk
    rw [hi, e1] at hn
    refine ⟨a, valueAt s i, hn.symm, e1, ?_, h.get_eq i h0 h1⟩
    have hk2 : i.toNat < (contents s).length := by rw [contents_length]; exact hk
    rw [List.getElem?_eq_getElem hk2, contents_getElem]
    simp [h0]

/-- An instance: the reachable list 10, 15, 20. -/
theorem lockstep_reachable_witness :
    Reachable demoList ∧
    ∃ addrs vals, 0 ≤ demoList.list.size ∧ addrs.length = demoList.list.size.toNat ∧
      vals.length = demoList.list.size.toNat ∧
      (∀ fuel, demoList.list.size.toNat ≤ fuel →
        walk demoList.heap fuel demoList.list.head = some addrs ∧
        traverse demoList.heap fuel demoList.list.head = some vals) ∧
      ∀ i, 0 ≤ i → i < demoList.list.size →
        ∃ a x, addrs[i.toNat]? = some a ∧ demoList.list.nodes i = some a ∧
          vals[i.toNat]? = some x ∧ get demoList i = some (x, demoList) :=
  ⟨demoList_reachable, lockstep_reachable demoList demoList_reachable⟩

/-- C6: in every reachable state with `size > 0`, `tail` refers to the element
at position `size - 1`, which is the last element the walk from `head` meets,
and that element's `next` link is empty. -/
theorem tail_is_last (s : State) (hr : Reachable s) (hpos : 0 < s.list.size) :
    ∃ a c, s.list.tail = some a ∧ s.list.nodes (s.list.size - 1) = some a ∧
      s.heap a = some c ∧ c.next = none ∧
      ∃ addrs, walk s.heap s.list.size.toNat s.list.head = some addrs ∧
        addrs.getLast? = some a := by
  have h := hr.inv
  obtain ⟨a, c, e1, e2, e3⟩ := h.cell (s.list.size - 1) (by omega) (by omega)
  obtain ⟨addrs, hw, hlen, hnodes⟩ := h.walk_some s.list.size.toNat (le_refl _)
  refine ⟨a, c, ?_, e1, e2, ?_, addrs, hw, ?_⟩
  · rw [h.tail_eq, if_neg (by omega), e1]
  · rw [e3, if_neg (by omega)]
  · have hn := hnodes (s.list.size.toNat - 1) (by omega)
    have hi : Int.ofNat (s.list.size.toNat - 1) = s.list.size - 1 := by
      simp only [Int.ofNat_eq_coe]; omega
    rw [hi, e1] at hn
    rw [List.getLast?_eq_getElem?, hlen, ← hn]

/-- An instance: the tail of the reachable list 10, 15, 20. -/
theorem tail_is_last_witness :
    Reachable demoList ∧ 0 < demoList.list.size ∧
    ∃ a c, demoList.list.tail = some a ∧ demoList.list.nodes (demoList.list.size - 1) = some a ∧
      demoList.heap a = some c ∧ c.next = none ∧
      ∃ addrs, walk demoList.heap demoList.list.size.toNat demoList.list.head = some addrs ∧
        addrs.getLast? = some a :=
  ⟨demoList_reachable, by decide, tail_is_last demoList demoList_reachable (by decide)⟩

/-- C7: in every reachable state `size == 0` holds exactly when `head` and
`tail` are both `NULL`; inserting at position 0 into an empty reachable list
makes the new element both `head` and `tail`, and removing the only element of
a reachable list resets both to `NULL`. -/
theorem emptiness_reachable (s : State) (hr : Reachable s) :
    (s.list.size = 0 ↔ s.list.head = none ∧ s.list.tail = none) ∧
    (s.list.size = 0 → ∀ (v : Int) (addr : Nat), s.heap addr = none →
      ∃ s1, insert s 0 v addr = some s1 ∧ s1.list.head = some addr ∧
        s1.list.tail = some addr ∧ s1.list.size = 1) ∧
    (s.list.size = 1 →
      ∃ s1, removeAt s 0 = some s1 ∧ s1.list.head = none ∧ s1.list.tail = none ∧
        s1.list.size = 0) := by
  have h := hr.inv
  have hcap := hr.cap_pos
  refine ⟨⟨?_, ?_⟩, ?_, ?_⟩
  · intro e
    rw [h.head_eq, h.tail_eq, if_pos e, if_pos e]
    exact ⟨rfl, rfl⟩
  · rintro ⟨e, -⟩
    by_contra hne
    have hsz := h.size_nonneg
    obtain ⟨a, c, e1, -, -⟩ := h.cell 0 (le_refl _) (by omega)
    rw [h.head_eq, if_neg hne, e1] at e
    exact Option.noConfusion e
  · intro e v addr hf
    have hroom : HasRoom s := Or.inl (by rw [e]; exact hcap)
    obtain ⟨s1, e1, hp⟩ := insert_post h 0 v addr (le_refl _) (by rw [e]) hf
      (hasRoom_room h hroom)
    refine ⟨s1, e1, ?_, ?_, ?_⟩
    · rw [hp.head_eq, if_pos rfl]
    · rw [hp.tail_eq, if_pos e.symm]
    · rw [hp.size_eq, e]; rfl
  · intro e
    obtain ⟨s1, e1, hp⟩ := removeAt_post h 0 (le_refl _) (by rw [e]; decide)
    refine ⟨s1, e1, ?_, ?_, ?_⟩
    · rw [hp.head_eq, if_pos rfl, if_neg (by rw [e]; decide)]
    · rw [hp.tail_eq, if_pos (by rw [e]; rfl), if_neg (lt_irrefl _)]
    · rw [hp.size_eq, e]; rfl

/-- Instances: the empty list returned by `createList`, and the removal of the
only element of the reachable one-element list. -/
theorem emptiness_reachable_witness :
    (Reachable (createList fun _ => none) ∧
    (((createList fun _ => none).list.size = 0 ↔
      (createList fun _ => none).list.head = none ∧ (createList fun _ => none).list.tail = none) ∧
    ((createList fun _ => none).list.size = 0 → ∀ (v : Int) (addr : Nat),
      (createList fun _ => none).heap addr = none →
      ∃ s1, insert (createList fun _ => none) 0 v addr = some s1 ∧ s1.list.head = some addr ∧
        s1.list.tail = some addr ∧ s1.list.size = 1) ∧
    ((createList fun _ => none).list.size = 1 →
      ∃ s1, removeAt (createList fun _ => none) 0 = some s1 ∧ s1.list.head = none ∧
        s1.list.tail = none ∧ s1.list.size = 0))) ∧
    (∃ s1, insert (createList fun _ => none) 0 5 1 = some s1 ∧ s1.list.head = some 1 ∧
      s1.list.tail = some 1 ∧ s1.list.size = 1) ∧
    (Reachable sentinelList ∧ sentinelList.list.size = 1 ∧
      ¬ (sentinelList.list.head = none ∧ sentinelList.list.tail = none) ∧
      ∃ s1, removeAt sentinelList 0 = some s1 ∧ s1.list.head = none ∧
        s1.list.tail = none ∧ s1.list.size = 0) :=
  ⟨⟨Reachable.create _, emptiness_reachable _ (Reachable.create _)⟩,
    (emptiness_reachable _ (Reachable.create _)).2.1 rfl 5 1 rfl,
    sentinelList_reachable, by decide,
    fun hc => absurd ((emptiness_reachable sentinelList sentinelList_reachable).1.2 hc)
      (by decide),
    (emptiness_reachable sentinelList sentinelList_reachable).2.2 (by decide)⟩

/-- C8 (amended): for every call sequence applied to a list returned by
`createList` in which every in-range `insert` is handed an unallocated address
and finds fewer than 2^30 elements, the run returns and the final `size` is
the number of `insert` calls whose index was in `[0, size]` when called minus
the number of `removeAt` calls whose index was in `[0, size)` when called. -/
theorem size_counts_calls (junk : Int → Ptr) (ops : List Op)
    (hf : feasible ops (createList junk) = true) :
    ∃ s, run ops (createList junk) = some s ∧
      s.list.size =
        (insertsOk ops (createList junk) : Int) - (removesOk ops (createList junk) : Int) := by
  obtain ⟨s, e, -, -, hs⟩ := run_refines ops (createList junk) (createList_inv junk)
    (by simp [createList]) hf
  refine ⟨s, e, ?_⟩
  rw [hs]
  simp [createList]

/-- An instance: the calls of `demoOps` on a fresh list. -/
theorem size_counts_calls_witness :
    feasible demoOps (createList fun _ => none) = true ∧
    ∃ s, run demoOps (createList fun _ => none) = some s ∧
      s.list.size =
        (insertsOk demoOps (createList fun _ => none) : Int) -
          (removesOk demoOps (createList fun _ => none) : Int) :=
  ⟨by decide, size_counts_calls (fun _ => none) demoOps (by decide)⟩

/-- C8 (counterexample): after the 2^30 appends of `fill` the `size` field is
2^30, and the run of `overfill`, which makes one more in-range `insert` call,
breaks in that call: it has no final `size` that could equal the count of
in-range calls. -/
theorem overfill_size_counterexample :
    ((run fill (createList fun _ => none)).map fun s => s.list.size) = some 1073741824 ∧
    run overfill (createList fun _ => none) = none ∧
    ¬ ∃ s, run overfill (createList fun _ => none) = some s ∧
      s.list.size =
        (insertsOk overfill (createList fun _ => none) : Int) -
          (removesOk overfill (createList fun _ => none) : Int) := by
  refine ⟨?_, run_overfill _, ?_⟩
  · obtain ⟨s, e, h⟩ := run_fill fun _ => none
    rw [e, Option.map_some', h.size_eq]
    rfl
  · rintro ⟨s, e, -⟩
    rw [run_overfill] at e
    exact Option.noConfusion e

/-- C9: `insert` fails, that is it returns having printed `Invalid index`,
exactly when `index < 0` or `index > size`, and a failing call leaves head,
tail, size, capacity, the index array and every heap cell as before;
`insert(5, 1)` on the empty list fails and the list stays empty. -/
theorem insert_fails_iff (s : State) (index value : Int) (addr : Nat) :
    ((index < 0 ∨ index > s.list.size) ↔
      ∃ s1, insert s index value addr = some s1 ∧ s1.out = s.out ++ ["Invalid index\n"]) ∧
    (∀ s1, insert s index value addr = some s1 → s1.out = s.out ++ ["Invalid index\n"] →
      s1.list = s.list ∧ s1.heap = s.heap) ∧
    ∀ junk, ∃ s1, insert (createList junk) 5 1 addr = some s1 ∧
      s1.out = (createList junk).out ++ ["Invalid index\n"] ∧
      s1.list.size = 0 ∧ s1.list.head = none ∧ s1.list.tail = none ∧ s1.heap addr = none := by
  have key : ∀ s1, insert s index value addr = some s1 → s1.out = s.out ++ ["Invalid index\n"] →
      (index < 0 ∨ index > s.list.size) := by
    intro s1 e ho
    by_contra hr
    rw [insert_out hr e] at ho
    exact printf_out_ne s "Invalid index\n" ho.symm
  refine ⟨⟨?_, ?_⟩, ?_, ?_⟩
  · intro hr
    exact ⟨printf s "Invalid index\n", by simp only [insert, hr, if_true], rfl⟩
  · rintro ⟨s1, e, ho⟩
    exact key s1 e ho
  · intro s1 e ho
    have hr := key s1 e ho
    simp only [insert, hr, if_true, Option.some.injEq] at e
    rw [← e]
    exact ⟨rfl, rfl⟩
  · intro junk
    exact ⟨printf (createList junk) "Invalid index\n", by simp [insert, createList],
      rfl, rfl, rfl, rfl, rfl⟩

/-- C10: `removeAt` fails, that is it returns having printed `Invalid index`,
exactly when `index < 0` or `index >= size`, and a failing call leaves head,
tail, size, the index array and every heap cell as before, so no element is
released. -/
theorem removeAt_fails_iff (s : State) (index : Int) :
    ((index < 0 ∨ index ≥ s.list.size) ↔
      ∃ s1, removeAt s index = some s1 ∧ s1.out = s.out ++ ["Invalid index\n"]) ∧
    (∀ s1, removeAt s index = some s1 → s1.out = s.out ++ ["Invalid index\n"] →
      s1.list = s.list ∧ s1.heap = s.heap) := by
  have key : ∀ s1, removeAt s index = some s1 → s1.out = s.out ++ ["Invalid index\n"] →
      (index < 0 ∨ index ≥ s.list.size) := by
    intro s1 e ho
    by_contra hr
    rw [removeAt_out hr e] at ho
    exact printf_out_ne s "Invalid index\n" ho.symm
  refine ⟨⟨?_, ?_⟩, ?_⟩
  · intro hr
    exact ⟨printf s "Invalid index\n", by simp only [removeAt, hr, if_true], rfl⟩
  · rintro ⟨s1, e, ho⟩
    exact key s1 e ho
  · intro s1 e ho
    have hr := key s1 e ho
    simp only [removeAt, hr, if_true, Option.some.injEq] at e
    rw [← e]
    exact ⟨rfl, rfl⟩

/-- C11 (the code at the failing input): in the reachable list holding the single
value -1, position 0 is in range and position 1 is not, yet `get` returns -1 for
both, and `main` prints no value for the in-range position 0. -/
theorem get_sentinel_collision :
    Reachable sentinelList ∧ sentinelList.list.size = 1 ∧
    (get sentinelList 0).map Prod.fst = some (-1) ∧
    (get sentinelList 1).map Prod.fst = some (-1) ∧
    (get sentinelList 0).map (fun r => r.2.out) = some sentinelList.out ∧
    (get sentinelList 1).map (fun r => r.2.out) = some (sentinelList.out ++ ["Invalid index\n"]) ∧
    (mainGet sentinelList 0).map (fun s1 => s1.out) =
      some (sentinelList.out ++ ["Enter index: "]) :=
  ⟨sentinelList_reachable, by decide, by decide, by decide, by decide, by decide, by decide⟩

theorem insertIdx_eraseIdx_self : ∀ (l : List Int) (n : Nat) (h : n < l.length),
    (l.eraseIdx n).insertIdx n (l.get ⟨n, h⟩) = l
  | [], n, h => absurd h (Nat.not_lt_zero n)
  | _ :: _, 0, _ => rfl
  | x :: xs, n + 1, h => by
    have ih := insertIdx_eraseIdx_self xs n (Nat.lt_of_succ_lt_succ h)
    simp only [List.eraseIdx_cons_succ, List.insertIdx_succ_cons, List.get_eq_getElem,
      List.getElem_cons_succ] at ih ⊢
    rw [ih]

theorem valueAt_of_contents {s s2 : State} (hc : contents s2 = contents s)
    (i : Int) (h0 : 0 ≤ i) (h1 : i < s.list.size) : valueAt s2 i = valueAt s i := by
  have hl : (contents s2).length = (contents s).length := by rw [hc]
  have hk : i.toNat < (contents s).length := by rw [contents_length]; omega
  have hk2 : i.toNat < (contents s2).length := by rw [hl]; exact hk
  have e1 := contents_getElem s i.toNat hk
  have e2 := contents_getElem s2 i.toNat hk2
  have hi : ((i.toNat : Nat) : Int) = i := by omega
  rw [hi] at e1 e2
  rw [← e1, ← e2]
  simp only [hc]

/-- C12: for every state satisfying the invariants and every position
`0 ≤ p < size`, with `v = get(list, p)`, `removeAt(list, p)` followed by
`insert(list, p, v)` (for whatever unallocated address `malloc` hands out)
returns and restores `get` at `p`, and with it the whole logical sequence:
`size`, `get` at every position and the traversal are as before. -/
theorem remove_insert_round_trip (s : State) (p : Int) (h : Inv s) (h0 : 0 ≤ p)
    (h1 : p < s.list.size) :
    ∃ v s1, get s p = some (v, s) ∧ removeAt s p = some s1 ∧
      ∀ addr, s1.heap addr = none →
        ∃ s2, insert s1 p v addr = some s2 ∧ get s2 p = some (v, s2) ∧
          s2.list.size = s.list.size ∧ contents s2 = contents s ∧
          (∀ i, 0 ≤ i → i < s.list.size →
            ∃ x, get s i = some (x, s) ∧ get s2 i = some (x, s2)) ∧
          ∀ fuel, s.list.size.toNat ≤ fuel →
            traverse s2.heap fuel s2.list.head = some (contents s) ∧
            traverse s.heap fuel s.list.head = some (contents s) := by
  obtain ⟨s1, e1, hp1⟩ := removeAt_post h p h0 h1
  have hi1 := hp1.inv_after_remove h h0 h1
  refine ⟨valueAt s p, s1, h.get_eq p h0 h1, e1, ?_⟩
  intro addr hf
  have hsz := h.size_le
  have hroom : HasRoom s1 := Or.inl (by rw [hp1.size_eq, hp1.cap_eq]; omega)
  have hc1 := hasRoom_room hi1 hroom
  have h1' : p ≤ s1.list.size := by rw [hp1.size_eq]; omega
  obtain ⟨s2, e2, hp2⟩ := insert_post hi1 p (valueAt s p) addr h0 h1' hf hc1
  have hi2 := hp2.inv_after_insert hi1 h0 h1' hf hc1
  have hsize : s2.list.size = s.list.size := by rw [hp2.size_eq, hp1.size_eq]; omega
  have hlen : p.toNat < (contents s).length := by rw [contents_length]; omega
  have hcont : contents s2 = contents s := by
    rw [hp2.contents_insert hi1 h0 h1' hf, hp1.contents_remove h h0 h1]
    have hv : valueAt s p = (contents s).get ⟨p.toNat, hlen⟩ := by
      have e := contents_getElem s p.toNat hlen
      have hi : ((p.toNat : Nat) : Int) = p := by omega
      rw [hi] at e
      exact e.symm
    rw [hv]
    exact insertIdx_eraseIdx_self _ _ hlen
  refine ⟨s2, e2, ?_, hsize, hcont, ?_, ?_⟩
  · rw [hi2.get_eq p h0 (by rw [hsize]; exact h1), valueAt_of_contents hcont p h0 h1]
  · intro i hi hi2'
    refine ⟨valueAt s i, h.get_eq i hi hi2', ?_⟩
    rw [hi2.get_eq i hi (by rw [hsize]; exact hi2'), valueAt_of_contents hcont i hi hi2']
  · intro fuel hfuel
    refine ⟨?_, h.traverse_eq fuel hfuel⟩
    rw [hi2.traverse_eq fuel (by rw [hsize]; exact hfuel), hcont]

/-- An instance: removing and re-inserting position 1 of the list 10, 15, 20. -/
theorem remove_insert_round_trip_witness :
    Inv demoList ∧ (0 : Int) ≤ 1 ∧ 1 < demoList.list.size ∧
    ∃ v s1, get demoList 1 = some (v, demoList) ∧ removeAt demoList 1 = some s1 ∧
      ∀ addr, s1.heap addr = none →
        ∃ s2, insert s1 1 v addr = some s2 ∧ get s2 1 = some (v, s2) ∧
          s2.list.size = demoList.list.size ∧ contents s2 = contents demoList ∧
          (∀ i, 0 ≤ i → i < demoList.list.size →
            ∃ x, get demoList i = some (x, demoList) ∧ get s2 i = some (x, s2)) ∧
          ∀ fuel, demoList.list.size.toNat ≤ fuel →
            traverse s2.heap fuel s2.list.head = some (contents demoList) ∧
            traverse demoList.heap fuel demoList.list.head = some (contents demoList) :=
  ⟨demoList_reachable.inv, by decide, by decide,
    remove_insert_round_trip demoList 1 demoList_reachable.inv (by decide) (by decide)⟩

/-- C13: starting from `createList`, after `insert(0,10)`, `insert(1,20)`,
`insert(1,15)` (with pairwise different nodes from `malloc`) the traversal
yields 10, 15, 20 and `get(1)` returns 15; after a further `removeAt(0)` the
traversal yields 15, 20 and `size` is 2. -/
theorem scenario_ten_fifteen_twenty (junk : Int → Ptr) (a b c : Nat) (hab : a ≠ b)
    (hac : a ≠ c) (hbc : b ≠ c) :
    ∃ s3 s4, run [.insert 0 10 a, .insert 1 20 b, .insert 1 15 c] (createList junk) = some s3 ∧
      traverse s3.heap s3.list.size.toNat s3.list.head = some [10, 15, 20] ∧
      get s3 1 = some (15, s3) ∧
      removeAt s3 0 = some s4 ∧
      traverse s4.heap s4.list.size.toNat s4.list.head = some [15, 20] ∧
      s4.list.size = 2 := by
  have hfeas : feasible [.insert 0 10 a, .insert 1 20 b, .insert 1 15 c] (createList junk) = true := by
    apply feasible_of_nodup _ _ (createList_inv junk) (by simp [createList])
    · intro x _; rfl
    · simp [insertAddrs, hab, hac, hbc]
    · simp [createList]
  obtain ⟨s3, e3, hi3, hc3, -⟩ := run_refines _ _ (createList_inv junk) (by simp [createList]) hfeas
  have hcont : contents s3 = [10, 15, 20] := by rw [hc3]; rfl
  have hsize : s3.list.size = 3 := by
    have := contents_length s3
    rw [hcont] at this
    have := hi3.size_nonneg
    simp at *
    omega
  obtain ⟨s4, e4, hp4⟩ := removeAt_post hi3 0 (le_refl _) (by rw [hsize]; decide)
  have hi4 := hp4.inv_after_remove hi3 (le_refl _) (by rw [hsize]; decide)
  have hcont4 : contents s4 = [15, 20] := by
    rw [hp4.contents_remove hi3 (le_refl _) (by rw [hsize]; decide), hcont]; rfl
  refine ⟨s3, s4, e3, ?_, ?_, e4, ?_, ?_⟩
  · rw [hi3.traverse_eq _ (le_refl _), hcont]
  · rw [hi3.get_eq 1 (by decide) (by rw [hsize]; decide)]
    have := contents_getElem s3 1 (by rw [hcont]; decide)
    simp only [hcont] at this
    rw [← show valueAt s3 ((1 : Nat) : Int) = valueAt s3 1 from rfl, ← this]
    rfl
  · rw [hi4.traverse_eq _ (le_refl _), hcont4]
  · rw [hp4.size_eq, hsize]; rfl

/-- An instance: the nodes at addresses 1, 2 and 3. -/
theorem scenario_ten_fifteen_twenty_witness :
    (1 : Nat) ≠ 2 ∧ (1 : Nat) ≠ 3 ∧ (2 : Nat) ≠ 3 ∧
    ∃ s3 s4, run [.insert 0 10 1, .insert 1 20 2, .insert 1 15 3] (createList fun _ => none) =
        some s3 ∧
      traverse s3.heap s3.list.size.toNat s3.list.head = some [10, 15, 20] ∧
      get s3 1 = some (15, s3) ∧
      removeAt s3 0 = some s4 ∧
      traverse s4.heap s4.list.size.toNat s4.list.head = some [15, 20] ∧
      s4.list.size = 2 :=
  ⟨by decide, by decide, by decide,
    scenario_ten_fifteen_twenty (fun _ => none) 1 2 3 (by decide) (by decide) (by decide)⟩

theorem join_append (xs ys : List String) :
    String.join (xs ++ ys) = String.join xs ++ String.join ys := by
  apply String.ext
  simp [String.data_join, String.data_append]

/-- C14 (amended): for every list satisfying the data-model invariants,
`printList` returns without changing the list and prints each value in
traversal order followed by the separator ` -> `, then the end marker `NULL`
and a line break, so the empty list prints just `NULL` and the line break. -/
theorem printList_format (s : State) (fuel : Nat) (h : Inv s) (hfuel : s.list.size.toNat ≤ fuel) :
    (∃ s1, printList fuel s = some s1 ∧ s1.list = s.list ∧ s1.heap = s.heap ∧
      traverse s.heap fuel s.list.head = some (contents s) ∧
      s1.out = s.out ++ (contents s).map (fun v => toString v ++ " -> ") ++ ["NULL\n"] ∧
      String.join s1.out = String.join s.out ++ printedText (contents s)) ∧
    ∀ junk, (printList 0 (createList junk)).map (fun s1 => s1.out) = some ["NULL\n"] := by
  have ht := h.traverse_eq fuel hfuel
  constructor
  · refine ⟨printf { s with out := s.out ++ (contents s).map fun v => toString v ++ " -> " }
        "NULL\n", by unfold printList; rw [printLoop_eq _ _ _ _ ht]; rfl, rfl, rfl, ht, rfl, ?_⟩
    simp only [printf, printedText, join_append]
    rw [String.append_assoc]
    congr 1
  · intro junk
    rfl

/-- An instance: printing the list 10, 15, 20. -/
theorem printList_format_witness :
    Inv demoList ∧ demoList.list.size.toNat ≤ 3 ∧
    ((∃ s1, printList 3 demoList = some s1 ∧ s1.list = demoList.list ∧ s1.heap = demoList.heap ∧
      traverse demoList.heap 3 demoList.list.head = some (contents demoList) ∧
      s1.out = demoList.out ++ (contents demoList).map (fun v => toString v ++ " -> ") ++
        ["NULL\n"] ∧
      String.join s1.out = String.join demoList.out ++ printedText (contents demoList)) ∧
    ∀ junk, (printList 0 (createList junk)).map (fun s1 => s1.out) = some ["NULL\n"]) :=
  ⟨demoList_reachable.inv, by decide,
    printList_format demoList 3 demoList_reachable.inv (by decide)⟩

/-- C14 (counterexample): for the list 10, 15, 20 the text `printList` prints ends
in `NULL` and a line break, not in the end marker `END` of the stated format,
and the empty list prints `NULL` and a line break, not just `END`. -/
theorem printList_end_marker_counterexample :
    (printList 3 demoList).map (fun s1 => String.join s1.out) = some "10 -> 15 -> 20 -> NULL\n" ∧
    specText [10, 15, 20] = "10 -> 15 -> 20 -> END" ∧
    (printList 3 demoList).map (fun s1 => String.join s1.out) ≠ some (specText [10, 15, 20]) ∧
    (printList 0 (createList fun _ => none)).map (fun s1 => String.join s1.out) = some "NULL\n" ∧
    (printList 0 (createList fun _ => none)).map (fun s1 => String.join s1.out) ≠
      some (specText []) := by
  refine ⟨by decide, by decide, by decide, by decide, by decide⟩

theorem printLoop_eq_map : ∀ (fuel : Nat) (s : State) (p : Ptr),
    printLoop fuel s p = (traverse s.heap fuel p).map fun vs =>
      { s with out := s.out ++ vs.map fun v => toString v ++ " -> " } := by
  intro fuel
  induction fuel with
  | zero =>
    intro s p
    cases p <;> simp [printLoop, traverse]
  | succ n ih =>
    intro s p
    cases p with
    | none => simp [printLoop, traverse]
    | some a =>
      simp only [printLoop, traverse]
      cases hc : s.heap a with
      | none => rfl
      | some c =>
        simp only []
        rw [ih (printf s (toString c.value ++ " -> ")) c.next]
        have hh : (printf s (toString c.value ++ " -> ")).heap = s.heap := rfl
        rw [hh]
        cases ht : traverse s.heap n c.next <;> simp [printf]

theorem Inv.traverse_short {s : State} (h : Inv s) : ∀ (fuel k : Nat) (i : Int),
    0 ≤ i → i + k = s.list.size → fuel < k →
    traverse s.heap fuel (if i < s.list.size then s.list.nodes i else none) = none := by
  intro fuel
  induction fuel with
  | zero =>
    intro k i h0 h1 hk
    have hi : i < s.list.size := by omega
    obtain ⟨a, c, e1, -, -⟩ := h.cell i h0 hi
    rw [if_pos hi, e1]
    rfl
  | succ n ih =>
    intro k i h0 h1 hk
    have hi : i < s.list.size := by omega
    obtain ⟨a, c, e1, e2, e3⟩ := h.cell i h0 hi
    obtain ⟨m, rfl⟩ : ∃ m, k = m + 1 := ⟨k - 1, by omega⟩
    rw [if_pos hi, e1]
    simp only [traverse, e2]
    rw [e3, ih m (i + 1) (by omega) (by push_cast at h1 ⊢; omega) (by omega)]
    rfl

theorem Inv.walk_nodup {s : State} (h : Inv s) (addrs : List Nat)
    (hlen : addrs.length = s.list.size.toNat)
    (hnodes : ∀ k : Nat, k < s.list.size.toNat → s.list.nodes (Int.ofNat k) = addrs[k]?) :
    addrs.Nodup := by
  rw [List.nodup_iff_getElem?_ne_getElem?]
  intro i j hij hj e
  rw [hlen] at hj
  rw [← hnodes i (by omega), ← hnodes j hj] at e
  have := h.inj (Int.ofNat i) (Int.ofNat j) (by simp) (by simp only [Int.ofNat_eq_coe]; omega)
    (by simp) (by simp only [Int.ofNat_eq_coe]; omega) e
  simp only [Int.ofNat_eq_coe] at this
  omega

/-- C15: in every state reachable from `createList` by `insert` and `removeAt`
calls the chain of next-links from `head` meets `size` pairwise different
elements and ends, so the loop of `printList` stops after exactly `size` steps
(it has not stopped after fewer), and `printList` changes neither the list nor
the heap, so a second traversal meets the same values and prints the same text. -/
theorem traversal_finite_restartable (s : State) (hr : Reachable s) :
    (∃ addrs, walk s.heap s.list.size.toNat s.list.head = some addrs ∧ addrs.Nodup ∧
      addrs.length = s.list.size.toNat) ∧
    (∀ fuel, fuel < s.list.size.toNat → printList fuel s = none) ∧
    ∀ fuel, s.list.size.toNat ≤ fuel →
      ∃ s1 s2 line, printList fuel s = some s1 ∧ s1.heap = s.heap ∧ s1.list = s.list ∧
        s1.out = s.out ++ line ∧
        traverse s1.heap fuel s1.list.head = traverse s.heap fuel s.list.head ∧
        traverse s.heap fuel s.list.head = some (contents s) ∧
        printList fuel s1 = some s2 ∧ s2.heap = s.heap ∧ s2.list = s.list ∧
        s2.out = s1.out ++ line := by
  have h := hr.inv
  have hsz := h.size_nonneg
  refine ⟨?_, ?_, ?_⟩
  · obtain ⟨addrs, hw, hlen, hnodes⟩ := h.walk_some s.list.size.toNat (le_refl _)
    exact ⟨addrs, hw, h.walk_nodup addrs hlen hnodes, hlen⟩
  · intro fuel hfuel
    unfold printList
    rw [printLoop_eq_map, h.head_eq_ite,
      h.traverse_short fuel s.list.size.toNat 0 (le_refl _) (by omega) hfuel]
    rfl
  · intro fuel hfuel
    have ht := h.traverse_eq fuel hfuel
    have e1 : printList fuel s = some (printf
        { s with out := s.out ++ (contents s).map fun v => toString v ++ " -> " } "NULL\n") := by
      unfold printList
      rw [printLoop_eq _ _ _ _ ht]
      rfl
    let body : List String := (contents s).map (fun v => toString v ++ " -> ")
    refine ⟨_, printf { s with out := (s.out ++ body ++ ["NULL\n"]) ++ body } "NULL\n",
      body ++ ["NULL\n"],
      e1, rfl, rfl, ?_, rfl, ht, ?_, rfl, rfl, ?_⟩
    · simp [printf]
    · unfold printList
      rw [printLoop_eq_map]
      show Option.map _ (Option.map _ (traverse s.heap fuel s.list.head)) = _
      rw [ht]
      rfl
    · simp [printf, body]

/-- An instance: the reachable list 10, 15, 20. -/
theorem traversal_finite_restartable_witness :
    Reachable demoList ∧
    ((∃ addrs, walk demoList.heap demoList.list.size.toNat demoList.list.head = some addrs ∧
      addrs.Nodup ∧ addrs.length = demoList.list.size.toNat) ∧
    (∀ fuel, fuel < demoList.list.size.toNat → printList fuel demoList = none) ∧
    ∀ fuel, demoList.list.size.toNat ≤ fuel →
      ∃ s1 s2 line, printList fuel demoList = some s1 ∧ s1.heap = demoList.heap ∧
        s1.list = demoList.list ∧ s1.out = demoList.out ++ line ∧
        traverse s1.heap fuel s1.list.head = traverse demoList.heap fuel demoList.list.head ∧
        traverse demoList.heap fuel demoList.list.head = some (contents demoList) ∧
        printList fuel s1 = some s2 ∧ s2.heap = demoList.heap ∧ s2.list = demoList.list ∧
        s2.out = s1.out ++ line) :=
  ⟨demoList_reachable, traversal_finite_restartable demoList demoList_reachable⟩

/-- C16: `createList` returns an empty sequence that satisfies every data-model
invariant: `size` is 0, `head` and `tail` are `NULL`, no node is allocated, the
traversal yields no values and prints only the end marker, and `get` fails
(returns -1 having printed `Invalid index`) at every position. -/
theorem createList_empty (junk : Int → Ptr) :
    Inv (createList junk) ∧ Reachable (createList junk) ∧
    (createList junk).list.size = 0 ∧ (createList junk).list.head = none ∧
    (createList junk).list.tail = none ∧ (createList junk).list.capacity = 1024 ∧
    (∀ a, (createList junk).heap a = none) ∧ contents (createList junk) = [] ∧
    (∀ fuel, traverse (createList junk).heap fuel (createList junk).list.head = some [] ∧
      (printList fuel (createList junk)).map (fun s1 => s1.out) = some ["NULL\n"]) ∧
    ∀ i, get (createList junk) i = some (-1, printf (createList junk) "Invalid index\n") := by
  refine ⟨createList_inv junk, Reachable.create junk, rfl, rfl, rfl, rfl, fun _ => rfl, rfl, ?_, ?_⟩
  · intro fuel
    cases fuel <;> exact ⟨rfl, rfl⟩
  · intro i
    have hr : i < 0 ∨ i ≥ (createList junk).list.size := by
      show i < 0 ∨ i ≥ 0
      omega
    simp only [get, hr, if_true]

theorem Filled.cap_after {s : State} (h : Filled 1073741824 s) :
    (ensureCapacity s).list.capacity = -2147483648 := by
  unfold ensureCapacity
  rw [if_pos (by rw [h.size_eq, h.cap_eq]; norm_num)]
  show wrap32 (s.list.capacity * 2) = _
  rw [h.cap_eq]
  decide

/-- C18 (amended): in every reachable state an in-range `removeAt` never
dereferences an empty reference (`nodes[index]`, `nodes[index - 1]` in the
non-head branch and `head` in the head branch are readable and live, and the
call returns), and in an in-range `insert` the new node and, in the append
branch, `tail` are live; when the index array has room after `ensureCapacity`
(`size < capacity`, or `0 < capacity < 2^30`) `nodes[index - 1]` is readable
and live in the middle branch and the linking step and the whole `insert`
return, `malloc` handing out an unallocated node. -/
theorem no_null_dereference (s : State) (index : Int) (hr : Reachable s) (h0 : 0 ≤ index) :
    (index ≤ s.list.size → ∀ value addr, s.heap addr = none →
      ∃ r, createNode (ensureCapacity s) addr value = some r ∧
        (∃ c, deref r.1 (some r.2) = some c) ∧
        (index ≠ 0 → index = s.list.size →
          ∃ t c, r.1.list.tail = some t ∧ deref r.1 (some t) = some c) ∧
        (HasRoom s →
          (index ≠ 0 → index ≠ s.list.size →
            ∃ q c, nodesRead r.1.list (index - 1) = some (some q) ∧
              deref r.1 (some q) = some c) ∧
          ∃ s1, linkNew r.1 index r.2 = some s1 ∧
            ∃ s2, insert s index value addr = some s2)) ∧
    (index < s.list.size →
      ∃ d c, nodesRead s.list index = some (some d) ∧ deref s (some d) = some c ∧
        (index = 0 → ∃ a c2, s.list.head = some a ∧ deref s (some a) = some c2) ∧
        (index ≠ 0 → ∃ q c2, nodesRead s.list (index - 1) = some (some q) ∧
          deref s (some q) = some c2) ∧
        (∃ s1, unlink s index (some d) = some s1) ∧
        ∃ s2, removeAt s index = some s2) := by
  have h := hr.inv
  have hsz := h.size_le
  constructor
  · intro h1 value addr hf
    have hlive : ∀ a c, s.heap a = some c →
        heapSet s.heap addr (some { value := value, next := none }) a = some c := by
      intro a c e
      have hne : a ≠ addr := by
        intro e2; rw [e2, hf] at e; exact Option.noConfusion e
      simp only [heapSet, hne, if_false]
      exact e
    refine ⟨({ ensureCapacity s with
        heap := heapSet s.heap addr (some { value := value, next := none }) }, addr),
      by simp only [createNode, ensureCapacity_heap, hf], ?_, ?_, ?_⟩
    · exact ⟨{ value := value, next := none }, by simp [deref, heapSet]⟩
    · intro hne he
      obtain ⟨t, c, e1, e2, -⟩ := h.cell (s.list.size - 1) (by omega) (by omega)
      refine ⟨t, c, ?_, hlive t c e2⟩
      show (ensureCapacity s).list.tail = some t
      rw [ensureCapacity_tail, h.tail_eq, if_neg (by omega), e1]
    · intro hroom
      have hc := hasRoom_room h hroom
      constructor
      · intro hne hne2
        obtain ⟨q, c, e1, e2, -⟩ := h.cell (index - 1) (by omega) (by omega)
        have hrd : 0 ≤ index - 1 ∧ index - 1 < (ensureCapacity s).list.capacity := by omega
        refine ⟨q, c, ?_, hlive q c e2⟩
        simp only [nodesRead, hrd, and_self, if_true, ensureCapacity_nodes, e1]
      · obtain ⟨sL, e, -⟩ := linkNew_post h { ensureCapacity s with
            heap := heapSet s.heap addr (some { value := value, next := none }) }
          index value addr h0 h1 hf hc rfl (by simp) (by simp) (by simp) (by simp)
        obtain ⟨s2, e2, -⟩ := insert_post h index value addr h0 h1 hf hc
        exact ⟨sL, e, s2, e2⟩
  · intro h1
    obtain ⟨d, c, e1, e2, -⟩ := h.cell index h0 h1
    have hrd : 0 ≤ index ∧ index < s.list.capacity := by omega
    refine ⟨d, c, by simp only [nodesRead, hrd, and_self, if_true, e1], e2, ?_, ?_, ?_, ?_⟩
    · intro he
      subst he
      exact ⟨d, c, by rw [h.head_eq, if_neg (by omega), e1], e2⟩
    · intro hne
      obtain ⟨q, cq, e3, e4, -⟩ := h.cell (index - 1) (by omega) (by omega)
      have hrd2 : 0 ≤ index - 1 ∧ index - 1 < s.list.capacity := by omega
      exact ⟨q, cq, by simp only [nodesRead, hrd2, and_self, if_true, e3], e4⟩
    · obtain ⟨sU, e, -⟩ := unlink_post h index h0 h1 d c e1 e2
      exact ⟨sU, e⟩
    · obtain ⟨s2, e, -⟩ := removeAt_post h index h0 h1
      exact ⟨s2, e⟩

/-- Instances on the reachable list 10, 15, 20, which has room: `insert` at the
head (0), in the middle (1) and at the end (3) returns, with `tail` live in the
append branch and `nodes[0]` live in the middle branch, and `removeAt` returns
at the head (0) and at the last position (2). -/
theorem no_null_dereference_witness :
    Reachable demoList ∧ HasRoom demoList ∧ demoList.heap 7 = none ∧
    demoList.list.size = 3 ∧
    (∃ s2, insert demoList 0 99 7 = some s2) ∧
    (∃ r q c, createNode (ensureCapacity demoList) 7 99 = some r ∧
      nodesRead r.1.list (1 - 1) = some (some q) ∧ deref r.1 (some q) = some c ∧
      ∃ s2, insert demoList 1 99 7 = some s2) ∧
    (∃ r t c, createNode (ensureCapacity demoList) 7 99 = some r ∧
      r.1.list.tail = some t ∧ deref r.1 (some t) = some c ∧
      ∃ s2, insert demoList 3 99 7 = some s2) ∧
    (∃ a c2, demoList.list.head = some a ∧ deref demoList (some a) = some c2 ∧
      ∃ s2, removeAt demoList 0 = some s2) ∧
    (∃ q c2, nodesRead demoList.list (2 - 1) = some (some q) ∧
      deref demoList (some q) = some c2 ∧ ∃ s2, removeAt demoList 2 = some s2) := by
  have hroom : HasRoom demoList := Or.inl (by decide)
  have hf : demoList.heap 7 = none := by decide
  refine ⟨demoList_reachable, hroom, hf, by decide, ?_, ?_, ?_, ?_, ?_⟩
  · obtain ⟨r, -, -, -, hk⟩ :=
      (no_null_dereference demoList 0 demoList_reachable (by decide)).1 (by decide) 99 7 hf
    obtain ⟨-, s1, -, s2, e2⟩ := hk hroom
    exact ⟨s2, e2⟩
  · obtain ⟨r, er, -, -, hk⟩ :=
      (no_null_dereference demoList 1 demoList_reachable (by decide)).1 (by decide) 99 7 hf
    obtain ⟨hm, s1, -, s2, e2⟩ := hk hroom
    obtain ⟨q, c, e3, e4⟩ := hm (by decide) (by decide)
    exact ⟨r, q, c, er, e3, e4, s2, e2⟩
  · obtain ⟨r, er, -, ht, hk⟩ :=
      (no_null_dereference demoList 3 demoList_reachable (by decide)).1 (by decide) 99 7 hf
    obtain ⟨t, c, e3, e4⟩ := ht (by decide) (by decide)
    obtain ⟨-, s1, -, s2, e2⟩ := hk hroom
    exact ⟨r, t, c, er, e3, e4, s2, e2⟩
  · obtain ⟨d, c, -, -, hh, -, -, s2, e2⟩ :=
      (no_null_dereference demoList 0 demoList_reachable (by decide)).2 (by decide)
    obtain ⟨a, c2, e3, e4⟩ := hh rfl
    exact ⟨a, c2, e3, e4, s2, e2⟩
  · obtain ⟨d, c, -, -, -, hn, -, s2, e2⟩ :=
      (no_null_dereference demoList 2 demoList_reachable (by decide)).2 (by decide)
    obtain ⟨q, c2, e3, e4⟩ := hn (by decide)
    exact ⟨q, c2, e3, e4, s2, e2⟩

/-- C18 (counterexample): the state reached by appending 2^30 elements is
reachable and has no room; position 5 is in range and in the middle branch of
`insert`, yet after `ensureCapacity` the slot `nodes[5 - 1]` cannot be read
(the doubled capacity is -2^31), so the linking step and the `insert` break. -/
theorem full_list_middle_link_counterexample :
    ∃ s, run fill (createList fun _ => none) = some s ∧ Reachable s ∧
      (0 : Int) ≤ 5 ∧ 5 ≤ s.list.size ∧ (5 : Int) ≠ 0 ∧ 5 ≠ s.list.size ∧
      s.heap 1073741824 = none ∧ ¬ HasRoom s ∧
      ∃ r, createNode (ensureCapacity s) 1073741824 7 = some r ∧
        nodesRead r.1.list (5 - 1) = none ∧ linkNew r.1 5 r.2 = none ∧
        insert s 5 7 1073741824 = none := by
  obtain ⟨s, e, hfl⟩ := run_fill fun _ => none
  have hr : Reachable s := run_reachable fill _ _ (Reachable.create _) e
  have hf : s.heap 1073741824 = none := hfl.fresh _ (le_refl _)
  have hcap := hfl.cap_after
  have hnr : ¬ HasRoom s := by
    unfold HasRoom
    rw [hfl.size_eq, hfl.cap_eq]
    norm_num
  have hrd : nodesRead (ensureCapacity s).list (5 - 1) = none := by
    simp only [nodesRead, hcap]
    rfl
  refine ⟨s, e, hr, by decide, by rw [hfl.size_eq]; decide, by decide,
    by rw [hfl.size_eq]; decide, hf, hnr,
    ({ ensureCapacity s with
        heap := heapSet s.heap 1073741824 (some { value := 7, next := none }) }, 1073741824),
    by simp only [createNode, ensureCapacity_heap, hf], hrd, ?_,
    hfl.insert_none _ _ _ (by decide) (by rw [hfl.size_eq]; decide)⟩
  have c1 : ¬ (5 : Int) = (ensureCapacity s).list.size := by
    rw [ensureCapacity_size, hfl.size_eq]; decide
  unfold linkNew
  rw [if_neg (by decide), if_neg c1]
  show (nodesRead (ensureCapacity s).list (5 - 1)).bind _ = none
  rw [hrd]
  rfl

/-- C19 (amended): for every state satisfying the invariants whose index array
has room (`size < capacity`, or `0 < capacity < 2^30`), every position
`0 ≤ p ≤ size`, every value `v` and every unallocated node handed out by
`malloc`, `insert(list, p, v)` followed by `removeAt(list, p)` returns and
restores the list: same `size`, same heap cells, `head`, `tail` and
`nodes[0..size)` refer to the same elements, and `get` at every position and
the traversal are as before. -/
theorem insert_remove_round_trip (s : State) (p v : Int) (addr : Nat) (h : Inv s) (h0 : 0 ≤ p)
    (h1 : p ≤ s.list.size) (hroom : HasRoom s) (hf : s.heap addr = none) :
    ∃ s1 s2, insert s p v addr = some s1 ∧ removeAt s1 p = some s2 ∧
      s2.list.size = s.list.size ∧ s2.heap = s.heap ∧
      s2.list.head = s.list.head ∧ s2.list.tail = s.list.tail ∧
      (∀ i, 0 ≤ i → i < s.list.size → s2.list.nodes i = s.list.nodes i) ∧
      contents s2 = contents s ∧
      (∀ i, 0 ≤ i → i < s.list.size → ∃ x, get s i = some (x, s) ∧ get s2 i = some (x, s2)) ∧
      ∀ fuel, s.list.size.toNat ≤ fuel →
        traverse s2.heap fuel s2.list.head = some (contents s) ∧
        traverse s.heap fuel s.list.head = some (contents s) ∧
        walk s2.heap fuel s2.list.head = walk s.heap fuel s.list.head := by
  have hsz := h.size_nonneg
  have hc := hasRoom_room h hroom
  obtain ⟨s1, e1, hp1⟩ := insert_post h p v addr h0 h1 hf hc
  have hi1 := hp1.inv_after_insert h h0 h1 hf hc
  have h1' : p < s1.list.size := by rw [hp1.size_eq]; omega
  obtain ⟨s2, e2, hp2⟩ := removeAt_post hi1 p h0 h1'
  have hi2 := hp2.inv_after_remove hi1 h0 h1'
  have hsize : s2.list.size = s.list.size := by rw [hp2.size_eq, hp1.size_eq]; omega
  have hnp : s1.list.nodes p = some addr := by rw [hp1.nodes_at_insert, if_pos rfl]
  have hheap : s2.heap = s.heap := by
    funext b
    by_cases hb : b = addr
    · subst hb
      rw [hp2.heap_del b hnp, hf]
    · have hnb : s1.list.nodes p ≠ some b := by
        rw [hnp]; intro e; exact hb (Option.some.inj e).symm
      rw [hp2.heap_old b hnb, hp1.heap_old b hb, hp1.nodes_at_insert (p - 1)]
      have k1 : ¬ p - 1 = p := by omega
      have k2 : ¬ (p < p - 1 ∧ p - 1 ≤ s.list.size) := by omega
      rw [if_neg k1, if_neg k2]
      by_cases hcnd : 0 < p ∧ s.list.nodes (p - 1) = some b
      · rw [if_pos hcnd, if_pos hcnd]
        obtain ⟨q, c, e3, e4, e5⟩ := h.cell (p - 1) (by omega) (by omega)
        have hqb : q = b := by rw [e3] at hcnd; exact Option.some.inj hcnd.2
        subst hqb
        rw [e4]
        simp only [Option.map_some', Option.some.injEq]
        rw [hp1.size_eq, hp1.nodes_at_insert (p + 1)]
        have k3 : ¬ p + 1 = p := by omega
        rw [if_neg k3]
        cases c with
        | mk cv cn =>
          simp only [Node.mk.injEq, true_and]
          simp only at e5
          rw [e5]
          split_ifs <;> first | rfl | (exfalso; omega) | (congr 1; omega)
      · rw [if_neg hcnd, if_neg hcnd]
  have hhead : s2.list.head = s.list.head := by
    rw [hp2.head_eq, hp1.head_eq, hp1.size_eq, hp1.nodes_at_insert, h.head_eq]
    split_ifs <;> first | rfl | (exfalso; omega)
  have htail : s2.list.tail = s.list.tail := by
    rw [hp2.tail_eq, hp1.tail_eq, hp1.size_eq, hp1.nodes_at_insert, h.tail_eq]
    split_ifs <;> first | rfl | (exfalso; omega) | (congr 1; omega)
  have hnodes : ∀ i, 0 ≤ i → i < s.list.size → s2.list.nodes i = s.list.nodes i := by
    intro i hi hi2
    rw [hp2.nodes_at_remove, hp1.size_eq, hp1.nodes_at_insert, hp1.nodes_at_insert]
    split_ifs <;> first | rfl | (exfalso; omega) | (congr 1; omega)
  have hcont : contents s2 = contents s := by
    rw [hp2.contents_remove hi1 h0 h1', hp1.contents_insert h h0 h1 hf]
    exact List.eraseIdx_insertIdx _ _
  refine ⟨s1, s2, e1, e2, hsize, hheap, hhead, htail, hnodes, hcont, ?_, ?_⟩
  · intro i hi hi2'
    refine ⟨valueAt s i, h.get_eq i hi hi2', ?_⟩
    rw [hi2.get_eq i hi (by rw [hsize]; exact hi2'), valueAt_of_contents hcont i hi hi2']
  · intro fuel hfuel
    refine ⟨?_, h.traverse_eq fuel hfuel, ?_⟩
    · rw [hi2.traverse_eq fuel (by rw [hsize]; exact hfuel), hcont]
    · rw [hheap, hhead]

/-- An instance: inserting 99 at position 1 of the list 10, 15, 20 and removing it again. -/
theorem insert_remove_round_trip_witness :
    Inv demoList ∧ (0 : Int) ≤ 1 ∧ 1 ≤ demoList.list.size ∧ HasRoom demoList ∧
    demoList.heap 7 = none ∧
    ∃ s1 s2, insert demoList 1 99 7 = some s1 ∧ removeAt s1 1 = some s2 ∧
      s2.list.size = demoList.list.size ∧ s2.heap = demoList.heap ∧
      s2.list.head = demoList.list.head ∧ s2.list.tail = demoList.list.tail ∧
      (∀ i, 0 ≤ i → i < demoList.list.size → s2.list.nodes i = demoList.list.nodes i) ∧
      contents s2 = contents demoList ∧
      (∀ i, 0 ≤ i → i < demoList.list.size →
        ∃ x, get demoList i = some (x, demoList) ∧ get s2 i = some (x, s2)) ∧
      ∀ fuel, demoList.list.size.toNat ≤ fuel →
        traverse s2.heap fuel s2.list.head = some (contents demoList) ∧
        traverse demoList.heap fuel demoList.list.head = some (contents demoList) ∧
        walk s2.heap fuel s2.list.head = walk demoList.heap fuel demoList.list.head :=
  ⟨demoList_reachable.inv, by decide, by decide, Or.inl (by decide), by decide,
    insert_remove_round_trip demoList 1 99 7 demoList_reachable.inv (by decide) (by decide)
      (Or.inl (by decide)) (by decide)⟩

/-- C19 (counterexample): on the list of 2^30 elements with a full index array,
which satisfies the invariants, `insert` at position 5 breaks, so the pair
`insert`, `removeAt` does not return the original list. -/
theorem full_list_insert_remove_counterexample :
    Inv fullList ∧ (0 : Int) ≤ 5 ∧ (5 : Int) ≤ fullList.list.size ∧
    fullList.heap 1073741824 = none ∧
    ((insert fullList 5 1 1073741824).bind fun s1 => removeAt s1 5) = none := by
  refine ⟨fullList_inv, by decide, by decide, by decide, ?_⟩
  rw [fullList_filled.insert_none _ _ _ (by decide) (by decide)]
  rfl

theorem createList_noLeak (junk : Int → Ptr) : NoLeak (createList junk) := by
  intro b hb
  exact absurd rfl hb

theorem InsertPost.noLeak_insert {s s1 : State} {index value : Int} {addr : Nat}
    (hn : NoLeak s) (hp : InsertPost s index value addr s1) (h0 : 0 ≤ index)
    (h1 : index ≤ s.list.size) : NoLeak s1 := by
  intro b hb
  by_cases hba : b = addr
  · subst hba
    exact ⟨index, h0, by rw [hp.size_eq]; omega, by rw [hp.nodes_at_insert, if_pos rfl]⟩
  · have hsb : s.heap b ≠ none := by
      intro e
      apply hb
      rw [hp.heap_old b hba, e]
      split_ifs <;> rfl
    obtain ⟨i, hi, hi2, e⟩ := hn b hsb
    by_cases c : i < index
    · refine ⟨i, hi, by rw [hp.size_eq]; omega, ?_⟩
      have k1 : ¬ i = index := by omega
      have k2 : ¬ (index < i ∧ i ≤ s.list.size) := by omega
      rw [hp.nodes_at_insert, if_neg k1, if_neg k2, e]
    · refine ⟨i + 1, by omega, by rw [hp.size_eq]; omega, ?_⟩
      have k1 : ¬ i + 1 = index := by omega
      have k2 : index < i + 1 ∧ i + 1 ≤ s.list.size := by omega
      rw [hp.nodes_at_insert, if_neg k1, if_pos k2, ← e]
      congr 1
      omega

theorem RemovePost.noLeak_remove {s s1 : State} {index : Int}
    (hn : NoLeak s) (hp : RemovePost s index s1) (h0 : 0 ≤ index)
    (h1 : index < s.list.size) : NoLeak s1 := by
  intro b hb
  have hnb : s.list.nodes index ≠ some b := by
    intro e
    exact hb (hp.heap_del b e)
  have hsb : s.heap b ≠ none := by
    intro e
    apply hb
    rw [hp.heap_old b hnb, e]
    split_ifs <;> rfl
  obtain ⟨i, hi, hi2, e⟩ := hn b hsb
  have hne : i ≠ index := by
    intro c
    rw [c] at e
    exact hnb e
  by_cases c : i < index
  · refine ⟨i, hi, by rw [hp.size_eq]; omega, ?_⟩
    have k2 : ¬ (index ≤ i ∧ i < s.list.size - 1) := by omega
    rw [hp.nodes_at_remove, if_neg k2, e]
  · refine ⟨i - 1, by omega, by rw [hp.size_eq]; omega, ?_⟩
    have k2 : index ≤ i - 1 ∧ i - 1 < s.list.size - 1 := by omega
    rw [hp.nodes_at_remove, if_pos k2, ← e]
    congr 1
    omega

/-- In every reachable state the allocated nodes are exactly the list elements. -/
theorem Reachable.noLeak {s : State} (hr : Reachable s) : NoLeak s := by
  induction hr with
  | create junk => exact createList_noLeak junk
  | @insert s s1 index value addr hs e ih =>
    by_cases hrg : index < 0 ∨ index > s.list.size
    · simp only [DSA.insert, hrg, if_true, Option.some.injEq] at e
      rw [← e]
      exact ih
    · have h0 : 0 ≤ index := by omega
      have h1 : index ≤ s.list.size := by omega
      obtain ⟨hf, hc⟩ := insert_some_room h0 h1 e
      obtain ⟨s2, e2, hp⟩ := insert_post hs.inv index value addr h0 h1 hf hc
      rw [e] at e2
      rw [Option.some.inj e2]
      exact hp.noLeak_insert ih h0 h1
  | @removeAt s s1 index hs e ih =>
    by_cases hrg : index < 0 ∨ index ≥ s.list.size
    · simp only [DSA.removeAt, hrg, if_true, Option.some.injEq] at e
      rw [← e]
      exact ih
    · have h0 : 0 ≤ index := by omega
      have h1 : index < s.list.size := by omega
      obtain ⟨s2, e2, hp⟩ := removeAt_post hs.inv index h0 h1
      rw [e] at e2
      rw [Option.some.inj e2]
      exact hp.noLeak_remove ih h0 h1

/-- C20: in every reachable state the references in `nodes[0..size)` are live
and pairwise different, and after a successful `removeAt` the released element
is no longer allocated and is referenced neither by `head`, `tail`, any
`nodes[i]` with `i` below the new `size`, nor by the `next` link of any node
that is still allocated. -/
theorem no_dangling_references (s : State) (hr : Reachable s) :
    (∀ i, 0 ≤ i → i < s.list.size → ∃ a c, s.list.nodes i = some a ∧ s.heap a = some c) ∧
    (∀ i j, 0 ≤ i → i < s.list.size → 0 ≤ j → j < s.list.size →
      s.list.nodes i = s.list.nodes j → i = j) ∧
    ∀ index, 0 ≤ index → index < s.list.size →
      ∃ d s1, s.list.nodes index = some d ∧ removeAt s index = some s1 ∧
        s1.heap d = none ∧ s1.list.head ≠ some d ∧ s1.list.tail ≠ some d ∧
        (∀ i, 0 ≤ i → i < s1.list.size → s1.list.nodes i ≠ some d) ∧
        ∀ b c, s1.heap b = some c → c.next ≠ some d := by
  have h := hr.inv
  refine ⟨?_, ?_, ?_⟩
  · intro i hi hi2
    obtain ⟨a, c, e1, e2, -⟩ := h.cell i hi hi2
    exact ⟨a, c, e1, e2⟩
  · intro i j hi hi2 hj hj2 e
    exact h.inj i j hi hi2 hj hj2 e
  · intro index h0 h1
    obtain ⟨d, cd, e1, -, -⟩ := h.cell index h0 h1
    obtain ⟨s1, e, hp⟩ := removeAt_post h index h0 h1
    have hr1 : Reachable s1 := Reachable.removeAt index hr e
    have hi1 := hr1.inv
    have hd : s1.heap d = none := hp.heap_del d e1
    have hnodes : ∀ i, 0 ≤ i → i < s1.list.size → s1.list.nodes i ≠ some d :=
      fun i hi hi2 => hi1.fresh_ne hd i hi hi2
    have hsz1 := hi1.size_nonneg
    refine ⟨d, s1, e1, e, hd, ?_, ?_, hnodes, ?_⟩
    · rw [hi1.head_eq]
      by_cases c : s1.list.size = 0
      · rw [if_pos c]; exact fun e => Option.noConfusion e
      · rw [if_neg c]; exact hnodes 0 (le_refl _) (by omega)
    · rw [hi1.tail_eq]
      by_cases c : s1.list.size = 0
      · rw [if_pos c]; exact fun e => Option.noConfusion e
      · rw [if_neg c]; exact hnodes _ (by omega) (by omega)
    · intro b c hb
      obtain ⟨i, hi, hi2, e3⟩ := hr1.noLeak b (by rw [hb]; exact fun e => Option.noConfusion e)
      obtain ⟨a, c2, e4, e5, e6⟩ := hi1.cell i hi hi2
      have hab : a = b := by rw [e3] at e4; exact (Option.some.inj e4).symm
      subst hab
      have hcc : c2 = c := by rw [hb] at e5; exact (Option.some.inj e5).symm
      subst hcc
      rw [e6]
      by_cases c : i + 1 < s1.list.size
      · rw [if_pos c]; exact hnodes (i + 1) (by omega) c
      · rw [if_neg c]; exact fun e => Option.noConfusion e

/-- An instance: the reachable list 10, 15, 20. -/
theorem no_dangling_references_witness :
    Reachable demoList ∧
    ((∀ i, 0 ≤ i → i < demoList.list.size →
      ∃ a c, demoList.list.nodes i = some a ∧ demoList.heap a = some c) ∧
    (∀ i j, 0 ≤ i → i < demoList.list.size → 0 ≤ j → j < demoList.list.size →
      demoList.list.nodes i = demoList.list.nodes j → i = j) ∧
    ∀ index, 0 ≤ index → index < demoList.list.size →
      ∃ d s1, demoList.list.nodes index = some d ∧ removeAt demoList index = some s1 ∧
        s1.heap d = none ∧ s1.list.head ≠ some d ∧ s1.list.tail ≠ some d ∧
        (∀ i, 0 ≤ i → i < s1.list.size → s1.list.nodes i ≠ some d) ∧
        ∀ b c, s1.heap b = some c → c.next ≠ some d) :=
  ⟨demoList_reachable, no_dangling_references demoList demoList_reachable⟩

end DSA
